import Mathlib

/-!
Verification of the jrsonnet manifestation subsystem
(`crates/jrsonnet-evaluator/src/manifest.rs`).

Text is modelled as lists of UTF-8 code units (`List Nat`, each entry a byte
value); the mutable `String` buffers of the original become explicit state
passing.  Lazily forced container slots are modelled by their forcing outcome
(`Except Err Val`), and an object's pending validations by the outcome of
`run_assertions` (`Option Err`, `none` meaning they pass).
-/

namespace Jrsonnet

/-- Code units of an ASCII string literal, used to transcribe the literal
texts of the source.  For ASCII characters the code point equals the byte. -/
def strBytes (s : String) : List Nat := s.data.map Char.toNat

/-- Decimal digit bytes of a natural number, most significant first; the first
argument is recursion fuel (any value above the digit count works). -/
def natDigitsAux : Nat → Nat → List Nat
  | 0, _ => []
  | fuel + 1, n => if n < 10 then [48 + n] else natDigitsAux fuel (n / 10) ++ [48 + n % 10]

/-- Decimal digit bytes of a natural number, most significant first. -/
def natBytes (n : Nat) : List Nat := natDigitsAux (n + 1) n

/-- Modelled from the spec: the host numeric formatting used by the writer
(`write!(buf, "{n}")`, section 4.2 calls it a contract boundary outside this
subsystem).  The Number payload is modelled as an integer and rendered as its
plain decimal text, an optional minus sign followed by decimal digits. -/
def intBytes : Int → List Nat
  | .ofNat n => natBytes n
  | .negSucc m => 45 :: natBytes (m + 1)

/-- An evaluator error: the original bail message together with the
description frames later layered onto it.  Context layering never changes
`msg`, mirroring how the error kind survives decoration. -/
structure Err where
  msg : List Nat
  frames : List (List Nat)
deriving DecidableEq

/-- Modelled from the spec: the error system's add-context-label wrapper
(section 6) decorates a propagated failure with a human-readable label
without changing its failure category. -/
def addFrame (frame : List Nat) (e : Err) : Err := ⟨e.msg, frame :: e.frames⟩

/-- Text of the context label `elem <i> evaluation`. -/
def elemEvalFrame (i : Nat) : List Nat :=
  strBytes "elem <" ++ natBytes i ++ strBytes "> evaluation"

/-- Text of the context label `elem <i> manifestification`. -/
def elemManifestFrame (i : Nat) : List Nat :=
  strBytes "elem <" ++ natBytes i ++ strBytes "> manifestification"

/-- Text of the context label `field <key> evaluation`. -/
def fieldEvalFrame (key : List Nat) : List Nat :=
  strBytes "field <" ++ key ++ strBytes "> evaluation"

/-- Text of the context label `field <key> manifestification`. -/
def fieldManifestFrame (key : List Nat) : List Nat :=
  strBytes "field <" ++ key ++ strBytes "> manifestification"

/-- The four JSON dialects of `JsonFormatting`. -/
inductive JsonFormatting where
  | Manifest
  | Std
  | ToString
  | Minify
deriving DecidableEq

/-- The format descriptor `JsonFormat`.  The `exp-preserve-order` and
`exp-bigint` feature-gated fields are compiled out, matching the default
feature set. -/
structure JsonFormat where
  padding : List Nat
  mtype : JsonFormatting
  newline : List Nat
  key_val_sep : List Nat
  debug_truncate_strings : Option Nat
deriving DecidableEq

/-- The `JsonFormat::minify` preset. -/
def JsonFormat.minify : JsonFormat :=
  ⟨[], .Minify, strBytes "\n", strBytes ":", none⟩

/-- The private `JsonFormat::std_to_string_helper` preset backing the
raw-string adapter. -/
def JsonFormat.std_to_string_helper : JsonFormat :=
  ⟨[], .ToString, strBytes "\n", strBytes ": ", none⟩

/-- The `JsonFormat::std_to_json` constructor. -/
def JsonFormat.std_to_json (padding newline key_val_sep : List Nat) : JsonFormat :=
  ⟨padding, .Std, newline, key_val_sep, none⟩

/-- The `JsonFormat::cli` constructor: `padding` spaces, Manifest dialect,
falling back to `minify` when `padding` is zero. -/
def JsonFormat.cli (padding : Nat) : JsonFormat :=
  if padding = 0 then JsonFormat.minify
  else ⟨List.replicate padding 32, .Manifest, strBytes "\n", strBytes ": ", none⟩

/-- The `JsonFormat::debug` preset. -/
def JsonFormat.debug : JsonFormat :=
  ⟨strBytes "   ", .Manifest, strBytes "\n", strBytes ": ", some 256⟩

/-- The `Default` instance of `JsonFormat`. -/
def JsonFormat.defaultFormat : JsonFormat :=
  ⟨strBytes "    ", .Manifest, strBytes "\n", strBytes ": ", none⟩

/-! ### The escape classification table and the string escaper -/

/-- Escape class byte `b` (two-character escape `\b`). -/
def BB : Nat := 98

/-- Escape class byte `t`. -/
def TT : Nat := 116

/-- Escape class byte `n`. -/
def NN : Nat := 110

/-- Escape class byte `f`. -/
def FF : Nat := 102

/-- Escape class byte `r`. -/
def RR : Nat := 114

/-- Escape class byte for the double quote. -/
def QU : Nat := 34

/-- Escape class byte for the backslash. -/
def BS : Nat := 92

/-- Escape class byte `u`: a six-character `\u00XX` escape. -/
def UU : Nat := 117

/-- The 256-entry lookup table `ESCAPE`: entry `i` is the escape class of
byte `i`, with `0` meaning the byte is not escaped. -/
def ESCAPE : List Nat := [
  UU, UU, UU, UU, UU, UU, UU, UU, BB, TT, NN, UU, FF, RR, UU, UU,
  UU, UU, UU, UU, UU, UU, UU, UU, UU, UU, UU, UU, UU, UU, UU, UU,
  0, 0, QU, 0, 0, 0, 0, 0, 0, 0, 0, 0, 0, 0, 0, 0,
  0, 0, 0, 0, 0, 0, 0, 0, 0, 0, 0, 0, 0, 0, 0, 0,
  0, 0, 0, 0, 0, 0, 0, 0, 0, 0, 0, 0, 0, 0, 0, 0,
  0, 0, 0, 0, 0, 0, 0, 0, 0, 0, 0, 0, BS, 0, 0, 0,
  0, 0, 0, 0, 0, 0, 0, 0, 0, 0, 0, 0, 0, 0, 0, 0,
  0, 0, 0, 0, 0, 0, 0, 0, 0, 0, 0, 0, 0, 0, 0, 0,
  0, 0, 0, 0, 0, 0, 0, 0, 0, 0, 0, 0, 0, 0, 0, 0,
  0, 0, 0, 0, 0, 0, 0, 0, 0, 0, 0, 0, 0, 0, 0, 0,
  0, 0, 0, 0, 0, 0, 0, 0, 0, 0, 0, 0, 0, 0, 0, 0,
  0, 0, 0, 0, 0, 0, 0, 0, 0, 0, 0, 0, 0, 0, 0, 0,
  0, 0, 0, 0, 0, 0, 0, 0, 0, 0, 0, 0, 0, 0, 0, 0,
  0, 0, 0, 0, 0, 0, 0, 0, 0, 0, 0, 0, 0, 0, 0, 0,
  0, 0, 0, 0, 0, 0, 0, 0, 0, 0, 0, 0, 0, 0, 0, 0,
  0, 0, 0, 0, 0, 0, 0, 0, 0, 0, 0, 0, 0, 0, 0, 0]

/-- The bytes `0123456789abcdef` (`HEX_DIGITS`). -/
def HEX_DIGITS : List Nat := strBytes "0123456789abcdef"

/-- The escape sequence emitted for byte `byte` of nonzero escape class
`esc`: the named classes give the two bytes backslash-class, class `UU`
gives the six bytes of `\u00XX` with lowercase hex digits. -/
def escape_seq (byte esc : Nat) : List Nat :=
  if esc = UU then
    [BS, UU, 48, 48, HEX_DIGITS.getD (byte / 16) 0, HEX_DIGITS.getD (byte % 16) 0]
  else [BS, esc]

/-- The scan loop of `escape_string_json_buf`: `rem` is the not-yet-visited
suffix of `bytes`, `i` the absolute index of its head, `start` the start of
the current run of pass-through bytes, `buf` the output accumulated so far.
Pass-through bytes are skipped; at an escaped byte the pending run
`bytes[start..i]` is flushed verbatim and the escape sequence appended; at
the end the final run is flushed and the closing quote appended. -/
def escape_scan (bytes : List Nat) : List Nat → Nat → Nat → List Nat → List Nat
  | [], _, start, buf =>
    if start = bytes.length then buf ++ [QU]
    else buf ++ bytes.drop start ++ [QU]
  | byte :: rem, i, start, buf =>
    let esc := ESCAPE.getD byte 0
    if esc = 0 then escape_scan bytes rem (i + 1) start buf
    else
      let buf1 := if start < i then buf ++ (bytes.drop start).take (i - start) else buf
      escape_scan bytes rem (i + 1) (i + 1) (buf1 ++ escape_seq byte esc)

/-- The string escaper `escape_string_json_buf`: appends the opening quote,
runs the scan over the input bytes, appending escaped content and the
closing quote to `buf`. -/
def escape_string_json_buf (value : List Nat) (buf : List Nat) : List Nat :=
  escape_scan value value 0 0 (buf ++ [QU])

/-- The convenience wrapper `escape_string_json`. -/
def escape_string_json (s : List Nat) : List Nat := escape_string_json_buf s []

/-! ### The value model and the recursive writer -/

/-- The value tree seen by the writer.  Strings carry their flattened UTF-8
bytes; numbers the modelled integer payload; array slots and object field
slots carry the outcome of forcing the lazy element (`Except.error` when
forcing fails); `assertions` carries the outcome of `run_assertions`
(`none` when the pending validations pass).  Object fields are listed in
the order `obj.iter` yields them.  The feature-gated `BigInt` variant is
compiled out, matching the default feature set. -/
inductive Val where
  | bool (b : Bool)
  | null
  | str (s : List Nat)
  | num (n : Int)
  | arr (items : List (Except Err Val))
  | obj (assertions : Option Err) (fields : List (List Nat × Except Err Val))
  | func

instance : DecidableEq (Except Err Unit) := fun a b =>
  match a, b with
  | .ok (), .ok () => isTrue rfl
  | .error e1, .error e2 =>
    if h : e1 = e2 then isTrue (by rw [h]) else isFalse (fun hh => by cases hh; exact h rfl)
  | .ok _, .error _ => isFalse (fun h => by cases h)
  | .error _, .ok _ => isFalse (fun h => by cases h)

/-- How control leaves one writer call: a normal `Ok(())` return, an early
`Err` return through `?`, or a panic (`str::split_at` called off a
character boundary) unwinding through the call without returning. -/
inductive WRes where
  | ok
  | error (e : Err)
  | panic
deriving DecidableEq

/-- State when control leaves one writer call: the outcome together with
the contents of the two mutable buffers (`buf` and `cur_padding`) at that
moment.  On a panic the buffers hold whatever had been written before the
panicking operation; nothing is returned to the caller, so claims about
returned values condition on `res` not being `panic`. -/
structure WriteOut where
  res : WRes
  buf : List Nat
  pad : List Nat
deriving DecidableEq

/-- Rust `str::is_char_boundary` on the byte representation: index 0 and
the end of the text are boundaries, and an interior index is one exactly
when the byte there is not a UTF-8 continuation byte (`0x80..=0xBF`). -/
def is_char_boundary (s : List Nat) (i : Nat) : Bool :=
  if i = 0 then true
  else match s[i]? with
    | none => decide (i = s.length)
    | some b => decide (b < 128 ∨ 192 ≤ b)

/-- The two separator pushes at the head of each element/field iteration:
the comma when the index is nonzero, then the dialect separator (newline
plus current indent for Manifest and StdLib, a space before non-first
elements for ToString, nothing for Minify). -/
def elem_sep (options : JsonFormat) (i : Nat) (buf cur_padding : List Nat) : List Nat :=
  let bufA := if i ≠ 0 then buf ++ [44] else buf
  match options.mtype with
  | .Manifest | .Std => bufA ++ options.newline ++ cur_padding
  | .ToString => if i ≠ 0 then bufA ++ [32] else bufA
  | .Minify => bufA

/-- The dialect-specific closing sequence pushed after the element/field
loop and the padding truncation, before the closing bracket or brace. -/
def close_seq (options : JsonFormat) (had : Bool) (buf pad : List Nat) : List Nat :=
  match options.mtype with
  | .Manifest => if !had then buf ++ [32] else buf ++ options.newline ++ pad
  | .ToString => if !had then buf ++ [32] else buf
  | .Std => (if !had then buf ++ options.newline else buf) ++ options.newline ++ pad
  | .Minify => buf

mutual
/-- Shallow embedding of `manifest_json_ex_buf`.  The mutable `buf` and
`cur_padding` strings become explicit inputs and outputs; an early `?`
return hands back the buffers exactly as they stand at that point, so the
truncation-skipping behaviour of error paths is observable.  Forcing a lazy
slot together with its `with_description` wrapper is inlined as a match on
the slot's outcome; `in_description_frame` around the recursive write
becomes `addFrame` on an error result.  The truncation path checks each
`str::split_at` index with `is_char_boundary` exactly as the standard
library does and leaves with `res = .panic` (buffers untouched by the
string arm) when a split would fall inside a multibyte character; a panic
unwinds through the loops without any further writes or truncations. -/
def manifest_json_ex_buf (options : JsonFormat) (val : Val)
    (buf cur_padding : List Nat) : WriteOut :=
  match val with
  | .bool v =>
    if v then ⟨.ok, buf ++ strBytes "true", cur_padding⟩
    else ⟨.ok, buf ++ strBytes "false", cur_padding⟩
  | .null => ⟨.ok, buf ++ strBytes "null", cur_padding⟩
  | .str s =>
    match options.debug_truncate_strings with
    | some truncate =>
      if s.length > truncate then
        if is_char_boundary s (truncate / 2) then
          let start := s.take (truncate / 2)
          let end1 := s.drop (truncate / 2)
          if is_char_boundary end1 (end1.length - truncate / 2) then
            let end2 := end1.drop (end1.length - truncate / 2)
            ⟨.ok, escape_string_json_buf (start ++ strBytes ".." ++ end2) buf, cur_padding⟩
          else ⟨.panic, buf, cur_padding⟩
        else ⟨.panic, buf, cur_padding⟩
      else ⟨.ok, escape_string_json_buf s buf, cur_padding⟩
    | none => ⟨.ok, escape_string_json_buf s buf, cur_padding⟩
  | .num n => ⟨.ok, buf ++ intBytes n, cur_padding⟩
  | .arr items =>
    let buf1 := buf ++ [91]
    let old_len := cur_padding.length
    let pad1 := cur_padding ++ options.padding
    match manifest_arr_items options items 0 buf1 pad1 with
    | ⟨.panic, buf2, pad2⟩ => ⟨.panic, buf2, pad2⟩
    | ⟨.error e, buf2, pad2⟩ => ⟨.error e, buf2, pad2⟩
    | ⟨.ok, buf2, pad2⟩ =>
      let pad3 := pad2.take old_len
      ⟨.ok, close_seq options (!items.isEmpty) buf2 pad3 ++ [93], pad3⟩
  | .obj assertions fields =>
    match assertions with
    | some e => ⟨.error e, buf, cur_padding⟩
    | none =>
      let buf1 := buf ++ [123]
      let old_len := cur_padding.length
      let pad1 := cur_padding ++ options.padding
      match manifest_obj_fields options fields 0 buf1 pad1 with
      | ⟨.panic, buf2, pad2⟩ => ⟨.panic, buf2, pad2⟩
      | ⟨.error e, buf2, pad2⟩ => ⟨.error e, buf2, pad2⟩
      | ⟨.ok, buf2, pad2⟩ =>
        let pad3 := pad2.take old_len
        ⟨.ok, close_seq options (!fields.isEmpty) buf2 pad3 ++ [125], pad3⟩
  | .func => ⟨.error ⟨strBytes "tried to manifest function", []⟩, buf, cur_padding⟩

/-- The element loop of the array arm of `manifest_json_ex_buf`; `i` is the
running element index (`had_items` on the success path equals
`items` being nonempty, since the flag is set on every iteration). -/
def manifest_arr_items (options : JsonFormat) (items : List (Except Err Val))
    (i : Nat) (buf cur_padding : List Nat) : WriteOut :=
  match items with
  | [] => ⟨.ok, buf, cur_padding⟩
  | item :: rest =>
    match item with
    | .error e => ⟨.error (addFrame (elemEvalFrame i) e), buf, cur_padding⟩
    | .ok v =>
      let bufB := elem_sep options i buf cur_padding
      match manifest_json_ex_buf options v bufB cur_padding with
      | ⟨.panic, buf2, pad2⟩ => ⟨.panic, buf2, pad2⟩
      | ⟨.error e, buf2, pad2⟩ => ⟨.error (addFrame (elemManifestFrame i) e), buf2, pad2⟩
      | ⟨.ok, buf2, pad2⟩ => manifest_arr_items options rest (i + 1) buf2 pad2

/-- The field loop of the object arm of `manifest_json_ex_buf`. -/
def manifest_obj_fields (options : JsonFormat)
    (fields : List (List Nat × Except Err Val)) (i : Nat)
    (buf cur_padding : List Nat) : WriteOut :=
  match fields with
  | [] => ⟨.ok, buf, cur_padding⟩
  | (key, value) :: rest =>
    match value with
    | .error e => ⟨.error (addFrame (fieldEvalFrame key) e), buf, cur_padding⟩
    | .ok v =>
      let bufD := escape_string_json_buf key (elem_sep options i buf cur_padding)
        ++ options.key_val_sep
      match manifest_json_ex_buf options v bufD cur_padding with
      | ⟨.panic, buf2, pad2⟩ => ⟨.panic, buf2, pad2⟩
      | ⟨.error e, buf2, pad2⟩ => ⟨.error (addFrame (fieldManifestFrame key) e), buf2, pad2⟩
      | ⟨.ok, buf2, pad2⟩ => manifest_obj_fields options rest (i + 1) buf2 pad2
end

/-- The wrapper `manifest_json_ex`: runs the writer on fresh buffers and
returns the produced text on success; `none` models the call never
returning because a panic unwound through it. -/
def manifest_json_ex (options : JsonFormat) (val : Val) :
    Option (Except Err (List Nat)) :=
  match manifest_json_ex_buf options val [] [] with
  | ⟨.ok, out, _⟩ => some (.ok out)
  | ⟨.error e, _, _⟩ => some (.error e)
  | ⟨.panic, _, _⟩ => none

/-! ### Dialect adapters -/

/-- Modelled from the spec: the type-name query of the value model
(section 6), used only inside error messages; names follow the kinds of the
value model (section 3). -/
def value_type : Val → List Nat
  | .bool _ => strBytes "boolean"
  | .null => strBytes "null"
  | .str _ => strBytes "string"
  | .num _ => strBytes "number"
  | .arr _ => strBytes "array"
  | .obj _ _ => strBytes "object"
  | .func => strBytes "function"

/-- The strict-string adapter `StringFormat`: the root must be a string,
whose flat text is appended unquoted; any other root fails with the
type-mismatch message naming the actual kind. -/
def StringFormat.manifest_buf (val : Val) (out : List Nat) :
    Except Err Unit × List Nat :=
  match val with
  | .str s => (.ok (), out ++ s)
  | v =>
    (.error ⟨strBytes "output should be string for string manifest format, got "
      ++ value_type v, []⟩, out)

/-- The trait-level `manifest` of `StringFormat`: fresh buffer, text
returned only on success. -/
def StringFormat.manifest (val : Val) : Except Err (List Nat) :=
  match StringFormat.manifest_buf val [] with
  | (.ok _, out) => .ok out
  | (.error e, _) => .error e

/-- The element loop of `YamlStreamFormat::manifest_buf`: each element is
forced (context `elem <i> evaluation`), preceded by the `---` marker line,
manifested by the wrapped format (context `elem <i> manifestification`),
and followed by a newline. -/
def yaml_stream_items (inner : Val → List Nat → Except Err Unit × List Nat)
    (items : List (Except Err Val)) (i : Nat) (out : List Nat) :
    Except Err Unit × List Nat :=
  match items with
  | [] => (.ok (), out)
  | item :: rest =>
    match item with
    | .error e => (.error (addFrame (elemEvalFrame i) e), out)
    | .ok v =>
      let out1 := out ++ strBytes "---\n"
      match inner v out1 with
      | (.error e, out2) => (.error (addFrame (elemManifestFrame i) e), out2)
      | (.ok _, out2) => yaml_stream_items inner rest (i + 1) (out2 ++ [10])

/-- The document-stream adapter `YamlStreamFormat`, with the wrapped format
passed as its buffer-writing function.  A non-array root fails with the
type-mismatch message naming the actual kind; the `is_empty` guard of the
source is dropped because iterating an empty array already emits nothing. -/
def YamlStreamFormat.manifest_buf
    (inner : Val → List Nat → Except Err Unit × List Nat)
    (c_document_end end_newline : Bool) (val : Val) (out : List Nat) :
    Except Err Unit × List Nat :=
  match val with
  | .arr items =>
    match yaml_stream_items inner items 0 out with
    | (.error e, out2) => (.error e, out2)
    | (.ok _, out2) =>
      let out3 := if c_document_end then out2 ++ strBytes "..." else out2
      let out4 := if end_newline then out3 ++ [10] else out3
      (.ok (), out4)
  | v =>
    (.error ⟨strBytes "output should be array for yaml stream format, got "
      ++ value_type v, []⟩, out)

/-! ### Reachability predicates over the value tree -/

mutual
/-- All lazy slots in the tree forced successfully and all pending
validations pass: the tree is a plain value in the sense of the data model. -/
def forcedVal : Val → Bool
  | .bool _ => true
  | .null => true
  | .str _ => true
  | .num _ => true
  | .arr items => forcedItems items
  | .obj assertions fields => assertions.isNone && forcedFields fields
  | .func => true

/-- `forcedVal` on every array slot. -/
def forcedItems : List (Except Err Val) → Bool
  | [] => true
  | .ok v :: rest => forcedVal v && forcedItems rest
  | .error _ :: _ => false

/-- `forcedVal` on every object field slot. -/
def forcedFields : List (List Nat × Except Err Val) → Bool
  | [] => true
  | (_, .ok v) :: rest => forcedVal v && forcedFields rest
  | (_, .error _) :: _ => false
end

mutual
/-- No `Function` value in the reachable structure (a slot whose forcing
failed contributes nothing reachable). -/
def noFuncVal : Val → Bool
  | .bool _ => true
  | .null => true
  | .str _ => true
  | .num _ => true
  | .arr items => noFuncItems items
  | .obj _ fields => noFuncFields fields
  | .func => false

/-- `noFuncVal` on every successfully forced array slot. -/
def noFuncItems : List (Except Err Val) → Bool
  | [] => true
  | .ok v :: rest => noFuncVal v && noFuncItems rest
  | .error _ :: rest => noFuncItems rest

/-- `noFuncVal` on every successfully forced object field slot. -/
def noFuncFields : List (List Nat × Except Err Val) → Bool
  | [] => true
  | (_, .ok v) :: rest => noFuncVal v && noFuncFields rest
  | (_, .error _) :: rest => noFuncFields rest
end

/-- Whether the string arm of the writer avoids the `str::split_at` panic
for this text under this descriptor: with a truncation limit configured and
exceeded, both split indices must fall on character boundaries. -/
def strNoPanic (options : JsonFormat) (s : List Nat) : Bool :=
  match options.debug_truncate_strings with
  | some truncate =>
    if s.length > truncate then
      is_char_boundary s (truncate / 2)
        && is_char_boundary (s.drop (truncate / 2))
            ((s.drop (truncate / 2)).length - truncate / 2)
    else true
  | none => true

mutual
/-- No string in the reachable structure makes the writer's truncation path
panic under this descriptor (trivially true without a truncation limit). -/
def noPanicVal (options : JsonFormat) : Val → Bool
  | .bool _ => true
  | .null => true
  | .str s => strNoPanic options s
  | .num _ => true
  | .arr items => noPanicItems options items
  | .obj _ fields => noPanicFields options fields
  | .func => true

/-- `noPanicVal` on every successfully forced array slot. -/
def noPanicItems (options : JsonFormat) : List (Except Err Val) → Bool
  | [] => true
  | .ok v :: rest => noPanicVal options v && noPanicItems options rest
  | .error _ :: rest => noPanicItems options rest

/-- `noPanicVal` on every successfully forced object field slot. -/
def noPanicFields (options : JsonFormat) : List (List Nat × Except Err Val) → Bool
  | [] => true
  | (_, .ok v) :: rest => noPanicVal options v && noPanicFields options rest
  | (_, .error _) :: rest => noPanicFields options rest
end

/-! ### Analysis helpers for the escaper -/

/-- The bytes the escaper contributes for one input byte: the byte itself
when its escape class is `0`, its escape sequence otherwise.  This is the
per-byte reading of the run-copying scan, proved equivalent below. -/
def escByte (b : Nat) : List Nat :=
  let esc := ESCAPE.getD b 0
  if esc = 0 then [b] else escape_seq b esc

/-- The full escaped body (without the enclosing quotes) of a byte string. -/
def bodyEsc (s : List Nat) : List Nat := s.flatMap escByte

/-! ### A standard JSON string decoder (spec side) -/

/-- Hexadecimal digit value of a byte, accepting both cases. -/
def hexVal (b : Nat) : Option Nat :=
  if 48 ≤ b ∧ b ≤ 57 then some (b - 48)
  else if 97 ≤ b ∧ b ≤ 102 then some (b - 87)
  else if 65 ≤ b ∧ b ≤ 70 then some (b - 55)
  else none

/-- UTF-8 encoding of one code point as bytes. -/
def utf8EncodeChar (n : Nat) : List Nat :=
  if n < 128 then [n]
  else if n < 2048 then [192 + n / 64, 128 + n % 64]
  else if n < 65536 then [224 + n / 4096, 128 + n / 64 % 64, 128 + n % 64]
  else [240 + n / 262144, 128 + n / 4096 % 64, 128 + n / 64 % 64, 128 + n % 64]

/-- Modelled from the spec: standard RFC 8259 JSON string-body decoding on
bytes, one decoded unit per fuel step.  Reads up to and including the
closing quote, returning the decoded bytes and the remaining input; raw
control bytes are rejected, the short escapes and `\uXXXX` (any hex case,
decoded to the UTF-8 bytes of the code point) are understood. -/
def json_decode_chars : Nat → List Nat → Option (List Nat × List Nat)
  | 0, _ => none
  | _ + 1, [] => none
  | fuel + 1, b :: rest =>
    if b = 34 then some ([], rest)
    else if b = 92 then
      match rest with
      | [] => none
      | e :: rest2 =>
        if e = 34 then (json_decode_chars fuel rest2).map (fun p => (34 :: p.1, p.2))
        else if e = 92 then (json_decode_chars fuel rest2).map (fun p => (92 :: p.1, p.2))
        else if e = 47 then (json_decode_chars fuel rest2).map (fun p => (47 :: p.1, p.2))
        else if e = 98 then (json_decode_chars fuel rest2).map (fun p => (8 :: p.1, p.2))
        else if e = 116 then (json_decode_chars fuel rest2).map (fun p => (9 :: p.1, p.2))
        else if e = 110 then (json_decode_chars fuel rest2).map (fun p => (10 :: p.1, p.2))
        else if e = 102 then (json_decode_chars fuel rest2).map (fun p => (12 :: p.1, p.2))
        else if e = 114 then (json_decode_chars fuel rest2).map (fun p => (13 :: p.1, p.2))
        else if e = 117 then
          match rest2 with
          | h1 :: h2 :: h3 :: h4 :: rest3 =>
            match hexVal h1, hexVal h2, hexVal h3, hexVal h4 with
            | some d1, some d2, some d3, some d4 =>
              (json_decode_chars fuel rest3).map
                (fun p => (utf8EncodeChar (((d1 * 16 + d2) * 16 + d3) * 16 + d4) ++ p.1, p.2))
            | _, _, _, _ => none
          | _ => none
        else none
    else if b < 32 then none
    else (json_decode_chars fuel rest).map (fun p => (b :: p.1, p.2))

/-- Modelled from the spec: decoding of a complete double-quoted JSON
string literal, with no input left over. -/
def json_decode_string (s : List Nat) : Option (List Nat) :=
  match s with
  | 34 :: rest =>
    (json_decode_chars (rest.length + 1) rest).bind
      (fun p => if p.2 = [] then some p.1 else none)
  | _ => none

/-! ### A UTF-8 validity checker (spec side) -/

/-- Classification of a byte opening a UTF-8 sequence: `none` for an
illegal lead, otherwise how many continuation bytes follow and the allowed
range of the first one (ranges per the Unicode standard: no overlongs, no
surrogates, maximum U+10FFFF). -/
def utf8Lead (b : Nat) : Option (Nat × Nat × Nat) :=
  if b < 128 then some (0, 0, 0)
  else if b < 194 then none
  else if b ≤ 223 then some (1, 128, 191)
  else if b = 224 then some (2, 160, 191)
  else if b = 237 then some (2, 128, 159)
  else if b ≤ 239 then some (2, 128, 191)
  else if b = 240 then some (3, 144, 191)
  else if b ≤ 243 then some (3, 128, 191)
  else if b = 244 then some (3, 128, 143)
  else none

/-- The UTF-8 acceptor: `k` continuation bytes are still expected, the next
of which must lie in `lo..hi` (subsequent ones in `128..191`). -/
def utf8Run : List Nat → Nat → Nat → Nat → Bool
  | [], k, _, _ => k == 0
  | b :: rest, 0, _, _ =>
    match utf8Lead b with
    | some (k', lo', hi') => utf8Run rest k' lo' hi'
    | none => false
  | b :: rest, k + 1, lo, hi =>
    if lo ≤ b ∧ b ≤ hi then utf8Run rest k 128 191 else false

/-- Modelled from the spec: strict UTF-8 validity of a byte sequence, the
invariant the text buffers of the original maintain. -/
def utf8ValidB (l : List Nat) : Bool := utf8Run l 0 0 0

/-! ### A conformant JSON value parser (spec side) -/

/-- Accumulate a maximal run of decimal digit bytes into a number. -/
def parseDigitsAux : List Nat → Nat → Nat × List Nat
  | [], acc => (acc, [])
  | b :: rest, acc =>
    if 48 ≤ b ∧ b ≤ 57 then parseDigitsAux rest (acc * 10 + (b - 48))
    else (acc, b :: rest)

/-- Parse a nonempty run of decimal digit bytes. -/
def parseDigits (s : List Nat) : Option (Nat × List Nat) :=
  match s with
  | [] => none
  | b :: rest =>
    if 48 ≤ b ∧ b ≤ 57 then some (parseDigitsAux (b :: rest) 0) else none

mutual
/-- Modelled from the spec: a conformant RFC 8259 JSON value parser on
bytes, restricted to whitespace-free documents (the Minify dialect emits
none outside strings) and to the integer number texts produced by the
modelled Number rendering.  Parsed containers are rebuilt as plain values:
array slots as successfully forced slots, objects with passing validations,
fields in document order.  Structural on the fuel argument. -/
def parseVal : Nat → List Nat → Option (Val × List Nat)
  | 0, _ => none
  | _ + 1, [] => none
  | fuel + 1, b :: rest =>
    if b = 110 then
      match rest with
      | 117 :: 108 :: 108 :: r => some (.null, r)
      | _ => none
    else if b = 116 then
      match rest with
      | 114 :: 117 :: 101 :: r => some (.bool true, r)
      | _ => none
    else if b = 102 then
      match rest with
      | 97 :: 108 :: 115 :: 101 :: r => some (.bool false, r)
      | _ => none
    else if b = 34 then
      (json_decode_chars (rest.length + 1) rest).map (fun p => (.str p.1, p.2))
    else if b = 91 then
      match rest with
      | 93 :: r => some (.arr [], r)
      | _ => (parseElems fuel rest).map (fun p => (.arr p.1, p.2))
    else if b = 123 then
      match rest with
      | 125 :: r => some (.obj none [], r)
      | _ => (parseMembers fuel rest).map (fun p => (.obj none p.1, p.2))
    else if b = 45 then (parseDigits rest).map (fun p => (.num (-(p.1 : Int)), p.2))
    else if 48 ≤ b ∧ b ≤ 57 then
      (parseDigits (b :: rest)).map (fun p => (.num (p.1 : Int), p.2))
    else none

/-- One or more comma-separated elements followed by the closing bracket. -/
def parseElems : Nat → List Nat → Option (List (Except Err Val) × List Nat)
  | 0, _ => none
  | fuel + 1, s =>
    (parseVal fuel s).bind (fun p =>
      match p.2 with
      | 44 :: r2 => (parseElems fuel r2).map (fun q => (.ok p.1 :: q.1, q.2))
      | 93 :: r2 => some ([.ok p.1], r2)
      | _ => none)

/-- One or more key-colon-value members followed by the closing brace. -/
def parseMembers : Nat → List Nat → Option (List (List Nat × Except Err Val) × List Nat)
  | 0, _ => none
  | fuel + 1, s =>
    match s with
    | 34 :: rest =>
      (json_decode_chars (rest.length + 1) rest).bind (fun kp =>
        match kp.2 with
        | 58 :: r2 =>
          (parseVal fuel r2).bind (fun p =>
            match p.2 with
            | 44 :: r3 =>
              (parseMembers fuel r3).map (fun q => ((kp.1, .ok p.1) :: q.1, q.2))
            | 125 :: r3 => some ([(kp.1, .ok p.1)], r3)
            | _ => none)
        | _ => none)
    | _ => none
end

/-- Parse a complete JSON document with nothing left over.  The fuel
`s.length + 1` always suffices because each recursion level consumes at
least one byte. -/
def parse_json (s : List Nat) : Option Val :=
  (parseVal (s.length + 1) s).bind (fun p => if p.2 = [] then some p.1 else none)

/-! ### Proof-side helpers: pure Minify rendering, pad repetition -/

/-- A remainder that cannot extend a rendered number: empty, or headed by a
byte that is not a decimal digit.  The separators and closers of the Minify
grammar (comma, both closing brackets) and the end of input all qualify. -/
def delim : List Nat → Bool
  | [] => true
  | b :: _ => !(48 ≤ b && b ≤ 57)

/-- The append-only relation between two buffer states: the second extends
the first, the prior contents surviving as an unchanged initial segment. -/
def bufGrows (a b : List Nat) : Prop := ∃ s, b = a ++ s

/-- Whether a value is a `Str`. -/
def Val.isStr : Val → Bool
  | .str _ => true
  | _ => false

/-- Whether a value is an `Arr`. -/
def Val.isArr : Val → Bool
  | .arr _ => true
  | _ => false

mutual
/-- The Minify output of a fully forced, function-free value, as a pure
function of the tree (proved to agree with the writer). -/
def renderMinify : Val → List Nat
  | .bool b => if b then strBytes "true" else strBytes "false"
  | .null => strBytes "null"
  | .str s => escape_string_json_buf s []
  | .num n => intBytes n
  | .arr items => [91] ++ renderItems0 items ++ [93]
  | .obj _ fields => [123] ++ renderFields0 fields ++ [125]
  | .func => []

/-- Minify element-list output, first element without a leading comma. -/
def renderItems0 : List (Except Err Val) → List Nat
  | [] => []
  | .ok v :: rest => renderMinify v ++ renderItemsT rest
  | .error _ :: _ => []

/-- Minify element-list output, every element with a leading comma. -/
def renderItemsT : List (Except Err Val) → List Nat
  | [] => []
  | .ok v :: rest => [44] ++ renderMinify v ++ renderItemsT rest
  | .error _ :: _ => []

/-- Minify field-list output, first field without a leading comma. -/
def renderFields0 : List (List Nat × Except Err Val) → List Nat
  | [] => []
  | (k, .ok v) :: rest =>
    escape_string_json_buf k [] ++ [58] ++ renderMinify v ++ renderFieldsT rest
  | (_, .error _) :: _ => []

/-- Minify field-list output, every field with a leading comma. -/
def renderFieldsT : List (List Nat × Except Err Val) → List Nat
  | [] => []
  | (k, .ok v) :: rest =>
    [44] ++ escape_string_json_buf k [] ++ [58] ++ renderMinify v ++ renderFieldsT rest
  | (_, .error _) :: _ => []
end

/-- `k` copies of a padding string, appended. -/
def padRep (p : List Nat) : Nat → List Nat
  | 0 => []
  | k + 1 => p ++ padRep p k

/-! ### Transcriptions of claimed output shapes (spec side) -/

/-- Transcription of C5's empty-array table: bracket pair for Minify, a
single space inside for ToString and Manifest, newline–newline–current
indent for StdLib. -/
def spec_empty_array_text (options : JsonFormat) (pad : List Nat) : List Nat :=
  match options.mtype with
  | .Minify => [91, 93]
  | .ToString => [91, 32, 93]
  | .Manifest => [91, 32, 93]
  | .Std => [91] ++ options.newline ++ options.newline ++ pad ++ [93]

/-- Transcription of C5's empty-object table. -/
def spec_empty_object_text (options : JsonFormat) (pad : List Nat) : List Nat :=
  match options.mtype with
  | .Minify => [123, 125]
  | .ToString => [123, 32, 125]
  | .Manifest => [123, 32, 125]
  | .Std => [123] ++ options.newline ++ options.newline ++ pad ++ [125]

/-! ### Concrete sample values used by witnesses and counterexamples -/

/-- The object of spec scenario 1. -/
def sampleScenario1 : Val :=
  .obj none [(strBytes "a", .ok (.num 1)),
             (strBytes "b", .ok (.arr [.ok (.bool true), .ok .null]))]

/-- A function-free object whose pending validations fail. -/
def sampleBadAssert : Val := .obj (some ⟨strBytes "assertion failed", []⟩) []

/-- An array holding a failing lazy slot before a function value. -/
def samplePreempted : Val := .arr [.error ⟨strBytes "boom", []⟩, .ok .func]

/-- A Minify-like descriptor with a debug truncation limit of 2. -/
def sampleTruncFormat : JsonFormat := ⟨[], .Minify, strBytes "\n", strBytes ":", some 2⟩

/-- The UTF-8 bytes of the two-character text e-acute euro-sign: byte index
1 falls inside the first character, so truncating it with limit 2 makes
`str::split_at` panic. -/
def sampleSplitStr : List Nat := [195, 169, 226, 130, 172]

/-- An array visiting a boundary-splitting long string before a function
value: under a truncating descriptor the writer panics before reaching the
function. -/
def samplePanicky : Val := .arr [.ok (.str sampleSplitStr), .ok .func]

/-! ## Lemmas: characterizing the escaper scan -/

theorem escByte_of_class_zero (b : Nat) (h : ESCAPE.getD b 0 = 0) : escByte b = [b] := by
  simp only [escByte]
  rw [h]
  simp

theorem escByte_of_class_ne (b : Nat) (h : ESCAPE.getD b 0 ≠ 0) :
    escByte b = escape_seq b (ESCAPE.getD b 0) := by
  simp only [escByte]
  rw [if_neg h]

theorem escape_scan_eq : ∀ (rem bytes : List Nat) (i start : Nat) (buf : List Nat),
    bytes.drop i = rem → start ≤ i →
    escape_scan bytes rem i start buf
      = buf ++ (bytes.drop start).take (i - start) ++ bodyEsc rem ++ [QU] := by
  intro rem
  induction rem with
  | nil =>
    intro bytes i start buf hdrop hle
    have hlen : bytes.length ≤ i := by
      by_contra hlt
      push_neg at hlt
      have := List.drop_eq_nil_iff.mp hdrop
      omega
    have htake : (bytes.drop start).take (i - start) = bytes.drop start :=
      List.take_of_length_le (by rw [List.length_drop]; omega)
    simp only [escape_scan, bodyEsc, List.flatMap_nil, htake]
    by_cases hs : start = bytes.length
    · have : bytes.drop start = [] := by
        apply List.drop_eq_nil_iff.mpr; omega
      simp [hs, this]
    · simp [hs]
  | cons byte rem ih =>
    intro bytes i start buf hdrop hle
    have hdrop1 : bytes.drop (i + 1) = rem := by
      have h1 : List.drop 1 (List.drop i bytes) = List.drop (i + 1) bytes :=
        List.drop_drop 1 i bytes
      rw [← h1, hdrop]
      rfl
    have hget : bytes[i]? = some byte := by
      have h1 : (bytes.drop i)[0]? = bytes[i + 0]? := List.getElem?_drop bytes i 0
      rw [hdrop] at h1
      simpa using h1.symm
    have hbody : bodyEsc (byte :: rem) = escByte byte ++ bodyEsc rem := by
      simp [bodyEsc]
    by_cases hesc : ESCAPE.getD byte 0 = 0
    · have hrec := ih bytes (i + 1) start buf hdrop1 (by omega)
      have hstep : escape_scan bytes (byte :: rem) i start buf
          = escape_scan bytes rem (i + 1) start buf := by
        simp only [escape_scan, hesc, if_pos]
      have htake : (bytes.drop start).take (i + 1 - start)
          = (bytes.drop start).take (i - start) ++ [byte] := by
        have h1 : i + 1 - start = (i - start) + 1 := by omega
        rw [h1, List.take_succ]
        have h2 : (bytes.drop start)[i - start]? = bytes[start + (i - start)]? :=
          List.getElem?_drop bytes start (i - start)
        have h3 : start + (i - start) = i := by omega
        rw [h2, h3, hget]
        rfl
      rw [hstep, hrec, htake, hbody, escByte_of_class_zero byte hesc]
      simp
    · have hrec := ih bytes (i + 1) (i + 1)
        ((if start < i then buf ++ (bytes.drop start).take (i - start) else buf)
          ++ escape_seq byte (ESCAPE.getD byte 0)) hdrop1 (le_refl _)
      have hstep : escape_scan bytes (byte :: rem) i start buf
          = escape_scan bytes rem (i + 1) (i + 1)
            ((if start < i then buf ++ (bytes.drop start).take (i - start) else buf)
              ++ escape_seq byte (ESCAPE.getD byte 0)) := by
        simp only [escape_scan, hesc, if_neg, ite_false]
      rw [hstep, hrec, hbody, escByte_of_class_ne byte hesc]
      have htake0 : (bytes.drop (i + 1)).take (i + 1 - (i + 1)) = [] := by simp
      by_cases hlt : start < i
      · simp only [if_pos hlt, htake0]
        simp
      · have hsi : start = i := by omega
        simp only [if_neg hlt, htake0, hsi]
        simp

theorem escape_eq (value buf : List Nat) :
    escape_string_json_buf value buf = buf ++ [34] ++ bodyEsc value ++ [34] := by
  have h := escape_scan_eq value value 0 0 (buf ++ [QU]) (by simp) (le_refl 0)
  simp only [escape_string_json_buf, h]
  simp [QU]

theorem escape_append (value buf : List Nat) :
    escape_string_json_buf value buf = buf ++ escape_string_json_buf value [] := by
  rw [escape_eq, escape_eq]
  simp

/-! ## Lemmas: per-byte behaviour of the escaper -/

set_option maxRecDepth 4000 in
theorem ESCAPE_length : ESCAPE.length = 256 := by rfl

theorem escape_class_zero_of_ge (b : Nat) (h : 256 ≤ b) : ESCAPE.getD b 0 = 0 := by
  have hnone : ESCAPE[b]? = none := List.getElem?_eq_none (by rw [ESCAPE_length]; omega)
  rw [List.getD_eq_getElem?_getD, hnone]
  rfl

set_option maxRecDepth 4000 in
theorem escByte_pass (b : Nat) (h1 : 32 ≤ b) (h2 : b ≠ 34) (h3 : b ≠ 92) :
    escByte b = [b] := by
  by_cases hb : b < 256
  · have key : ∀ c, c < 256 → 32 ≤ c → c ≠ 34 → c ≠ 92 → ESCAPE.getD c 0 = 0 := by decide
    exact escByte_of_class_zero b (key b hb h1 h2 h3)
  · exact escByte_of_class_zero b (escape_class_zero_of_ge b (by omega))

theorem escByte_hi (b : Nat) (h : 128 ≤ b) : escByte b = [b] :=
  escByte_pass b (by omega) (by omega) (by omega)

theorem escByte_ne_nil (b : Nat) : escByte b ≠ [] := by
  by_cases h : ESCAPE.getD b 0 = 0
  · rw [escByte_of_class_zero b h]
    simp
  · rw [escByte_of_class_ne b h]
    simp only [escape_seq]
    split <;> simp

theorem bodyEsc_nil : bodyEsc [] = [] := by simp [bodyEsc]

theorem bodyEsc_cons (b : Nat) (t : List Nat) :
    bodyEsc (b :: t) = escByte b ++ bodyEsc t := by simp [bodyEsc]

theorem bodyEsc_length (s : List Nat) : s.length ≤ (bodyEsc s).length := by
  induction s with
  | nil => simp [bodyEsc]
  | cons b t ih =>
    rw [bodyEsc_cons]
    have h1 : 1 ≤ (escByte b).length := List.length_pos.mpr (escByte_ne_nil b)
    simp only [List.length_append, List.length_cons]
    omega

set_option maxRecDepth 4000 in
theorem escByte_uu : ∀ b, b < 32 → b ≠ 8 → b ≠ 9 → b ≠ 10 → b ≠ 12 → b ≠ 13 →
    escByte b = [92, 117, 48, 48, HEX_DIGITS.getD (b / 16) 0, HEX_DIGITS.getD (b % 16) 0] := by
  have key : ∀ b, b < 32 →
      b = 8 ∨ b = 9 ∨ b = 10 ∨ b = 12 ∨ b = 13 ∨ ESCAPE.getD b 0 = UU := by decide
  intro b h1 h2 h3 h4 h5 h6
  have hu : ESCAPE.getD b 0 = UU := by
    rcases key b h1 with h | h | h | h | h | h <;> first | exact absurd h (by assumption) | exact h
  rw [escByte_of_class_ne b (by rw [hu]; decide), hu]
  simp [escape_seq, BS, UU]

/-! ## Lemmas: the decoder undoes the escaper -/

theorem decode_raw (b : Nat) (h1 : ¬ b < 32) (h2 : b ≠ 34) (h3 : b ≠ 92)
    (fuel : Nat) (s : List Nat) :
    json_decode_chars (fuel + 1) (b :: s)
      = (json_decode_chars fuel s).map (fun p => (b :: p.1, p.2)) := by
  simp [json_decode_chars, h1, h2, h3]

theorem decode_bs_q (fuel : Nat) (s : List Nat) :
    json_decode_chars (fuel + 1) (92 :: 34 :: s)
      = (json_decode_chars fuel s).map (fun p => (34 :: p.1, p.2)) := by
  simp [json_decode_chars]

theorem decode_bs_bs (fuel : Nat) (s : List Nat) :
    json_decode_chars (fuel + 1) (92 :: 92 :: s)
      = (json_decode_chars fuel s).map (fun p => (92 :: p.1, p.2)) := by
  simp [json_decode_chars]

theorem decode_bs_b (fuel : Nat) (s : List Nat) :
    json_decode_chars (fuel + 1) (92 :: 98 :: s)
      = (json_decode_chars fuel s).map (fun p => (8 :: p.1, p.2)) := by
  simp [json_decode_chars]

theorem decode_bs_t (fuel : Nat) (s : List Nat) :
    json_decode_chars (fuel + 1) (92 :: 116 :: s)
      = (json_decode_chars fuel s).map (fun p => (9 :: p.1, p.2)) := by
  simp [json_decode_chars]

theorem decode_bs_n (fuel : Nat) (s : List Nat) :
    json_decode_chars (fuel + 1) (92 :: 110 :: s)
      = (json_decode_chars fuel s).map (fun p => (10 :: p.1, p.2)) := by
  simp [json_decode_chars]

theorem decode_bs_f (fuel : Nat) (s : List Nat) :
    json_decode_chars (fuel + 1) (92 :: 102 :: s)
      = (json_decode_chars fuel s).map (fun p => (12 :: p.1, p.2)) := by
  simp [json_decode_chars]

theorem decode_bs_r (fuel : Nat) (s : List Nat) :
    json_decode_chars (fuel + 1) (92 :: 114 :: s)
      = (json_decode_chars fuel s).map (fun p => (13 :: p.1, p.2)) := by
  simp [json_decode_chars]

theorem decode_bs_u (h1 h2 h3 h4 d1 d2 d3 d4 : Nat)
    (e1 : hexVal h1 = some d1) (e2 : hexVal h2 = some d2)
    (e3 : hexVal h3 = some d3) (e4 : hexVal h4 = some d4)
    (fuel : Nat) (s : List Nat) :
    json_decode_chars (fuel + 1) (92 :: 117 :: h1 :: h2 :: h3 :: h4 :: s)
      = (json_decode_chars fuel s).map
          (fun p => (utf8EncodeChar (((d1 * 16 + d2) * 16 + d3) * 16 + d4) ++ p.1, p.2)) := by
  simp [json_decode_chars, e1, e2, e3, e4]

theorem hexVal_HEX (d : Nat) (h : d < 16) : hexVal (HEX_DIGITS.getD d 0) = some d := by
  have key : ∀ c, c < 16 → hexVal (HEX_DIGITS.getD c 0) = some c := by decide
  exact key d h

theorem utf8EncodeChar_small (b : Nat) (h : b < 128) : utf8EncodeChar b = [b] := by
  simp [utf8EncodeChar, h]

set_option maxRecDepth 4000 in
theorem decode_escByte (b fuel : Nat) (s : List Nat) :
    json_decode_chars (fuel + 1) (escByte b ++ s)
      = (json_decode_chars fuel s).map (fun p => (b :: p.1, p.2)) := by
  by_cases hb : b < 256
  · have key : ∀ c, c < 256 →
        (ESCAPE.getD c 0 = 0 ∧ 32 ≤ c ∧ c ≠ 34 ∧ c ≠ 92) ∨
        c = 8 ∨ c = 9 ∨ c = 10 ∨ c = 12 ∨ c = 13 ∨ c = 34 ∨ c = 92 ∨
        (c < 32 ∧ ESCAPE.getD c 0 = UU) := by decide
    rcases key b hb with ⟨h0, hge, hq, hs⟩ | rfl | rfl | rfl | rfl | rfl | rfl | rfl | ⟨hlt, hu⟩
    · rw [escByte_of_class_zero b h0]
      exact decode_raw b (by omega) hq hs fuel s
    · rw [show escByte 8 = [92, 98] from by decide]
      exact decode_bs_b fuel s
    · rw [show escByte 9 = [92, 116] from by decide]
      exact decode_bs_t fuel s
    · rw [show escByte 10 = [92, 110] from by decide]
      exact decode_bs_n fuel s
    · rw [show escByte 12 = [92, 102] from by decide]
      exact decode_bs_f fuel s
    · rw [show escByte 13 = [92, 114] from by decide]
      exact decode_bs_r fuel s
    · rw [show escByte 34 = [92, 34] from by decide]
      exact decode_bs_q fuel s
    · rw [show escByte 92 = [92, 92] from by decide]
      exact decode_bs_bs fuel s
    · have hne : ESCAPE.getD b 0 ≠ 0 := by rw [hu]; decide
      rw [escByte_of_class_ne b hne, hu]
      have hseq : escape_seq b UU
          = [92, 117, 48, 48, HEX_DIGITS.getD (b / 16) 0, HEX_DIGITS.getD (b % 16) 0] := by
        simp [escape_seq, BS, UU]
      rw [hseq]
      have hx0 : hexVal 48 = some 0 := by decide
      have hxh : hexVal (HEX_DIGITS.getD (b / 16) 0) = some (b / 16) :=
        hexVal_HEX _ (by omega)
      have hxl : hexVal (HEX_DIGITS.getD (b % 16) 0) = some (b % 16) :=
        hexVal_HEX _ (by omega)
      have hstep := decode_bs_u 48 48 (HEX_DIGITS.getD (b / 16) 0)
        (HEX_DIGITS.getD (b % 16) 0) 0 0 (b / 16) (b % 16) hx0 hx0 hxh hxl fuel s
      have harith : ((0 * 16 + 0) * 16 + b / 16) * 16 + b % 16 = b := by omega
      rw [show ([92, 117, 48, 48, HEX_DIGITS.getD (b / 16) 0,
            HEX_DIGITS.getD (b % 16) 0] ++ s)
          = 92 :: 117 :: 48 :: 48 :: HEX_DIGITS.getD (b / 16) 0 ::
            HEX_DIGITS.getD (b % 16) 0 :: s from rfl]
      rw [hstep, harith, utf8EncodeChar_small b (by omega)]
      simp
  · have hpass : escByte b = [b] := escByte_pass b (by omega) (by omega) (by omega)
    rw [hpass]
    exact decode_raw b (by omega) (by omega) (by omega) fuel s

theorem decode_bodyEsc : ∀ (t : List Nat) (fuel : Nat) (rest : List Nat),
    t.length < fuel →
    json_decode_chars fuel (bodyEsc t ++ 34 :: rest) = some (t, rest) := by
  intro t
  induction t with
  | nil =>
    intro fuel rest h
    cases fuel with
    | zero => omega
    | succ f => simp [bodyEsc, json_decode_chars]
  | cons b t ih =>
    intro fuel rest h
    cases fuel with
    | zero => omega
    | succ f =>
      rw [bodyEsc_cons, List.append_assoc, decode_escByte,
        ih f rest (by simp at h; omega)]
      rfl

theorem json_decode_escape (t : List Nat) :
    json_decode_string (escape_string_json_buf t []) = some t := by
  have hlen : t.length < (bodyEsc t ++ 34 :: []).length + 1 := by
    have := bodyEsc_length t
    simp only [List.length_append, List.length_cons, List.length_nil]
    omega
  have hd := decode_bodyEsc t ((bodyEsc t ++ 34 :: []).length + 1) [] hlen
  rw [escape_eq]
  have hshape : ([] : List Nat) ++ [34] ++ bodyEsc t ++ [34]
      = 34 :: (bodyEsc t ++ 34 :: []) := by simp
  rw [hshape]
  simp only [json_decode_string]
  rw [hd]
  rfl

/-! ## Claim C2 -/

set_option maxRecDepth 4000 in
/-- C2 (amended): for every text t the escaper produces a double-quoted
literal whose standard JSON string decoding is exactly t; the output is the
quote, the per-byte escape translation, and the closing quote; NUL is
emitted as `\u0000`, newline as `\n`, the double quote as an escaped quote,
the backslash as a doubled backslash; backspace, tab, form feed and
carriage return as the two-character escapes `\b`, `\t`, `\f`, `\r`; every
other control byte as a six-character lowercase `\u00XX` escape; and every
byte at least 0x20 other than the quote and the backslash is copied through
unescaped. -/
theorem claim_C2_escape_decode_inverse :
    (∀ t : List Nat, json_decode_string (escape_string_json_buf t []) = some t)
    ∧ (∀ t buf : List Nat,
        escape_string_json_buf t buf = buf ++ [34] ++ t.flatMap escByte ++ [34])
    ∧ escByte 0 = [92, 117, 48, 48, 48, 48]
    ∧ escByte 10 = [92, 110]
    ∧ escByte 34 = [92, 34]
    ∧ escByte 92 = [92, 92]
    ∧ escByte 8 = [92, 98]
    ∧ escByte 9 = [92, 116]
    ∧ escByte 12 = [92, 102]
    ∧ escByte 13 = [92, 114]
    ∧ (∀ b, b < 32 → b ≠ 8 → b ≠ 9 → b ≠ 10 → b ≠ 12 → b ≠ 13 →
        escByte b = [92, 117, 48, 48, HEX_DIGITS.getD (b / 16) 0, HEX_DIGITS.getD (b % 16) 0])
    ∧ (∀ b, 32 ≤ b → b ≠ 34 → b ≠ 92 → escByte b = [b]) := by
  refine ⟨json_decode_escape, ?_, by decide, by decide, by decide, by decide,
    by decide, by decide, by decide, by decide, escByte_uu, escByte_pass⟩
  intro t buf
  exact escape_eq t buf

set_option maxRecDepth 4000 in
/-- C2 counterexample: the tab byte 0x09 is emitted as the two-character
escape `\t`, not as the six-character escape `\u0009` the claim requires of
every control byte other than NUL and newline. -/
theorem claim_C2_counterexample :
    escape_string_json_buf [9] [] = [34, 92, 116, 34]
    ∧ escape_string_json_buf [9] [] ≠ [34, 92, 117, 48, 48, 48, 57, 34] := by
  constructor
  · decide
  · decide

set_option maxRecDepth 4000 in
/-- C2 witness: the amended claim applied at concrete inputs. -/
theorem claim_C2_witness :
    escByte 7 = [92, 117, 48, 48, 48, 55] ∧ escByte 65 = [65] :=
  ⟨by
    have h := claim_C2_escape_decode_inverse.2.2.2.2.2.2.2.2.2.2.1 7
      (by decide) (by decide) (by decide) (by decide) (by decide) (by decide)
    rw [h]
    decide,
   claim_C2_escape_decode_inverse.2.2.2.2.2.2.2.2.2.2.2 65 (by decide) (by decide) (by decide)⟩

/-! ## Lemmas: UTF-8 validity is preserved by the escaper -/

theorem utf8Run_zero_state (l : List Nat) (lo hi lo' hi' : Nat) :
    utf8Run l 0 lo hi = utf8Run l 0 lo' hi' := by
  cases l <;> rfl

theorem utf8Lead_ascii (b : Nat) (h : b < 128) : utf8Lead b = some (0, 0, 0) := by
  simp [utf8Lead, h]

theorem utf8Lead_cont_facts (b k' lo' hi' : Nat)
    (h : utf8Lead b = some (k', lo', hi')) :
    (k' = 0 → b < 128) ∧ (k' ≠ 0 → 128 ≤ b ∧ 128 ≤ lo') := by
  simp only [utf8Lead] at h
  split_ifs at h <;> simp at h <;>
    obtain ⟨hk, hlo, hhi⟩ := h <;> constructor <;> intro <;> omega

theorem utf8Run_ascii_append : ∀ (l1 : List Nat), (∀ c ∈ l1, c < 128) →
    ∀ (l2 : List Nat) (lo hi : Nat),
    utf8Run (l1 ++ l2) 0 lo hi = utf8Run l2 0 0 0 := by
  intro l1
  induction l1 with
  | nil => intro _ l2 lo hi; simpa using utf8Run_zero_state l2 lo hi 0 0
  | cons c t ih =>
    intro h l2 lo hi
    have hc : c < 128 := h c (by simp)
    rw [List.cons_append]
    simp only [utf8Run, utf8Lead_ascii c hc]
    exact ih (fun x hx => h x (by simp [hx])) l2 0 0

theorem utf8Run_append : ∀ (a c : List Nat) (k lo hi : Nat),
    utf8Run a k lo hi = true → utf8Run (a ++ c) k lo hi = utf8Run c 0 0 0 := by
  intro a
  induction a with
  | nil =>
    intro c k lo hi h
    have hk : k = 0 := by simpa [utf8Run] using h
    subst hk
    simpa using utf8Run_zero_state c lo hi 0 0
  | cons b rest ih =>
    intro c k lo hi h
    cases k with
    | zero =>
      cases hl : utf8Lead b with
      | none => simp [utf8Run, hl] at h
      | some st =>
        obtain ⟨k', lo', hi'⟩ := st
        simp only [utf8Run, hl] at h
        rw [List.cons_append]
        simp only [utf8Run, hl]
        exact ih c k' lo' hi' h
    | succ k0 =>
      by_cases hr : lo ≤ b ∧ b ≤ hi
      · simp only [utf8Run, if_pos hr] at h
        rw [List.cons_append]
        simp only [utf8Run, if_pos hr]
        exact ih c k0 128 191 h
      · simp [utf8Run, hr] at h

set_option maxRecDepth 4000 in
theorem escByte_ascii : ∀ b, b < 128 → ∀ c ∈ escByte b, c < 128 := by decide

theorem utf8Run_bodyEsc : ∀ (a : List Nat) (k lo hi : Nat), (0 < k → 128 ≤ lo) →
    utf8Run a k lo hi = true → utf8Run (bodyEsc a) k lo hi = true := by
  intro a
  induction a with
  | nil => intro k lo hi _ h; rwa [bodyEsc_nil]
  | cons b rest ih =>
    intro k lo hi hlo h
    rw [bodyEsc_cons]
    cases k with
    | zero =>
      cases hl : utf8Lead b with
      | none => simp [utf8Run, hl] at h
      | some st =>
        obtain ⟨k', lo', hi'⟩ := st
        simp only [utf8Run, hl] at h
        obtain ⟨hfst, hsnd⟩ := utf8Lead_cont_facts b k' lo' hi' hl
        by_cases hk' : k' = 0
        · subst hk'
          have hb : b < 128 := hfst rfl
          rw [utf8Run_ascii_append (escByte b) (escByte_ascii b hb) (bodyEsc rest) lo hi]
          have h00 : utf8Run rest 0 0 0 = true := by
            rw [utf8Run_zero_state rest 0 0 lo' hi']
            exact h
          exact ih 0 0 0 (by omega) h00
        · obtain ⟨hb, hlo'⟩ := hsnd hk'
          rw [escByte_hi b hb, List.singleton_append]
          simp only [utf8Run, hl]
          exact ih k' lo' hi' (fun _ => hlo') h
    | succ k0 =>
      by_cases hr : lo ≤ b ∧ b ≤ hi
      · simp only [utf8Run, if_pos hr] at h
        have hb : 128 ≤ b := by have := hlo (by omega); omega
        rw [escByte_hi b hb, List.singleton_append]
        simp only [utf8Run, if_pos hr]
        exact ih k0 128 191 (by omega) h
      · simp [utf8Run, hr] at h

/-! ## Claim C3 -/

/-- C3: for every valid UTF-8 input string and every initial buffer holding
valid UTF-8 text, the escaper leaves the output buffer holding valid UTF-8
text on return; it only copies input bytes verbatim or appends ASCII escape
sequences, and every byte 0x80 to 0xFF passes through intact. -/
theorem claim_C3_utf8_safety :
    (∀ s buf : List Nat, utf8ValidB s = true → utf8ValidB buf = true →
      utf8ValidB (escape_string_json_buf s buf) = true)
    ∧ (∀ b, 128 ≤ b → b ≤ 255 → escByte b = [b]) := by
  constructor
  · intro s buf hs hbuf
    rw [escape_eq]
    have hshape : buf ++ [34] ++ bodyEsc s ++ [34]
        = buf ++ ([34] ++ (bodyEsc s ++ [34])) := by simp
    rw [hshape]
    unfold utf8ValidB at hbuf hs ⊢
    rw [utf8Run_append buf _ 0 0 0 hbuf,
      utf8Run_ascii_append [34] (by decide) (bodyEsc s ++ [34]) 0 0]
    have hbody : utf8Run (bodyEsc s) 0 0 0 = true :=
      utf8Run_bodyEsc s 0 0 0 (by omega) hs
    rw [utf8Run_append (bodyEsc s) [34] 0 0 0 hbody]
    decide
  · intro b h1 _
    exact escByte_hi b h1

/-- C3 witness: the theorem applied at a concrete two-byte character plus a
NUL, with a nonempty valid buffer, and at the concrete byte 0xC8. -/
theorem claim_C3_witness :
    utf8ValidB (escape_string_json_buf [195, 169, 0] [34]) = true
    ∧ escByte 200 = [200] :=
  ⟨claim_C3_utf8_safety.1 [195, 169, 0] [34] (by decide) (by decide),
   claim_C3_utf8_safety.2 200 (by decide) (by decide)⟩

/-! ## Lemmas: the buffer only grows (claim C10) -/

theorem bufGrows_refl (a : List Nat) : bufGrows a a := ⟨[], by simp⟩

theorem bufGrows_append (a x : List Nat) : bufGrows a (a ++ x) := ⟨x, rfl⟩

theorem bufGrows_trans {a b c : List Nat} (h1 : bufGrows a b) (h2 : bufGrows b c) :
    bufGrows a c := by
  obtain ⟨s1, e1⟩ := h1
  obtain ⟨s2, e2⟩ := h2
  exact ⟨s1 ++ s2, by rw [e2, e1, List.append_assoc]⟩

theorem bufGrows_append_right {a b : List Nat} (h : bufGrows a b) (x : List Nat) :
    bufGrows a (b ++ x) := bufGrows_trans h (bufGrows_append b x)

theorem elem_sep_grows (options : JsonFormat) (i : Nat) (buf pad : List Nat) :
    bufGrows buf (elem_sep options i buf pad) := by
  simp only [elem_sep]
  cases options.mtype <;> split_ifs <;>
    first
      | exact bufGrows_refl buf
      | exact bufGrows_append _ _
      | exact bufGrows_append_right (bufGrows_append _ _) _
      | exact bufGrows_append_right (bufGrows_append_right (bufGrows_append _ _) _) _

theorem close_seq_grows (options : JsonFormat) (had : Bool) (buf pad : List Nat) :
    bufGrows buf (close_seq options had buf pad) := by
  simp only [close_seq]
  cases options.mtype <;> split_ifs <;>
    first
      | exact bufGrows_refl buf
      | exact bufGrows_append _ _
      | exact bufGrows_append_right (bufGrows_append _ _) _
      | exact bufGrows_append_right (bufGrows_append_right (bufGrows_append _ _) _) _

mutual
theorem lem_buf_val : ∀ (options : JsonFormat) (v : Val) (buf pad : List Nat),
    bufGrows buf (manifest_json_ex_buf options v buf pad).buf
  | options, .bool b, buf, pad => by
    cases b <;> exact ⟨_, rfl⟩
  | _, .null, buf, _ => ⟨_, rfl⟩
  | options, .str s, buf, pad => by
    simp only [manifest_json_ex_buf]
    split
    · split_ifs <;> first | exact ⟨_, escape_append _ buf⟩ | exact bufGrows_refl buf
    · exact ⟨_, escape_append _ buf⟩
  | _, .num n, buf, _ => ⟨_, rfl⟩
  | options, .arr items, buf, pad => by
    have h1 := lem_buf_items options items 0 (buf ++ [91]) (pad ++ options.padding)
    simp only [manifest_json_ex_buf]
    rcases hres : manifest_arr_items options items 0 (buf ++ [91]) (pad ++ options.padding)
      with ⟨res, buf2, pad2⟩
    rw [hres] at h1
    cases res with
    | error e => exact bufGrows_trans (bufGrows_append buf [91]) h1
    | panic => exact bufGrows_trans (bufGrows_append buf [91]) h1
    | ok =>
      exact bufGrows_append_right
        (bufGrows_trans (bufGrows_trans (bufGrows_append buf [91]) h1)
          (close_seq_grows options (!items.isEmpty) buf2 (pad2.take pad.length))) [93]
  | options, .obj assertions fields, buf, pad => by
    cases assertions with
    | some e => exact ⟨[], by simp [manifest_json_ex_buf]⟩
    | none =>
      have h1 := lem_buf_fields options fields 0 (buf ++ [123]) (pad ++ options.padding)
      simp only [manifest_json_ex_buf]
      rcases hres : manifest_obj_fields options fields 0 (buf ++ [123]) (pad ++ options.padding)
        with ⟨res, buf2, pad2⟩
      rw [hres] at h1
      cases res with
      | error e => exact bufGrows_trans (bufGrows_append buf [123]) h1
      | panic => exact bufGrows_trans (bufGrows_append buf [123]) h1
      | ok =>
        exact bufGrows_append_right
          (bufGrows_trans (bufGrows_trans (bufGrows_append buf [123]) h1)
            (close_seq_grows options (!fields.isEmpty) buf2 (pad2.take pad.length))) [125]
  | _, .func, buf, _ => ⟨[], by simp [manifest_json_ex_buf]⟩
termination_by options v buf pad => sizeOf v

theorem lem_buf_items : ∀ (options : JsonFormat) (items : List (Except Err Val))
    (i : Nat) (buf pad : List Nat),
    bufGrows buf (manifest_arr_items options items i buf pad).buf
  | _, [], _, buf, _ => ⟨[], by simp [manifest_arr_items]⟩
  | options, item :: rest, i, buf, pad => by
    cases item with
    | error e => exact ⟨[], by simp [manifest_arr_items]⟩
    | ok v =>
      have hsep := elem_sep_grows options i buf pad
      have hval := lem_buf_val options v (elem_sep options i buf pad) pad
      simp only [manifest_arr_items]
      rcases hres : manifest_json_ex_buf options v (elem_sep options i buf pad) pad
        with ⟨res, buf2, pad2⟩
      rw [hres] at hval
      cases res with
      | error e => exact bufGrows_trans hsep hval
      | panic => exact bufGrows_trans hsep hval
      | ok =>
        exact bufGrows_trans (bufGrows_trans hsep hval)
          (lem_buf_items options rest (i + 1) buf2 pad2)
termination_by options items i buf pad => sizeOf items

theorem lem_buf_fields : ∀ (options : JsonFormat)
    (fields : List (List Nat × Except Err Val)) (i : Nat) (buf pad : List Nat),
    bufGrows buf (manifest_obj_fields options fields i buf pad).buf
  | _, [], _, buf, _ => ⟨[], by simp [manifest_obj_fields]⟩
  | options, (key, value) :: rest, i, buf, pad => by
    cases value with
    | error e => exact ⟨[], by simp [manifest_obj_fields]⟩
    | ok v =>
      have hsep : bufGrows buf
          (escape_string_json_buf key (elem_sep options i buf pad)
            ++ options.key_val_sep) := by
        refine bufGrows_append_right (bufGrows_trans (elem_sep_grows options i buf pad) ?_) _
        exact ⟨_, escape_append key _⟩
      have hval := lem_buf_val options v
        (escape_string_json_buf key (elem_sep options i buf pad) ++ options.key_val_sep) pad
      simp only [manifest_obj_fields]
      rcases hres : manifest_json_ex_buf options v
          (escape_string_json_buf key (elem_sep options i buf pad) ++ options.key_val_sep) pad
        with ⟨res, buf2, pad2⟩
      rw [hres] at hval
      cases res with
      | error e => exact bufGrows_trans hsep hval
      | panic => exact bufGrows_trans hsep hval
      | ok =>
        exact bufGrows_trans (bufGrows_trans hsep hval)
          (lem_buf_fields options rest (i + 1) buf2 pad2)
termination_by options fields i buf pad => sizeOf fields
end

/-! ## Claim C10 -/

/-- C10: the recursive writer and the string escaper are append-only on the
output buffer: for every value, descriptor, and initial buffer contents,
after the call returns (with success or with an error) the prior buffer
contents are an unchanged initial segment of the buffer.  The model also
tracks the buffer state at a panic exit, and the invariant covers it. -/
theorem claim_C10_append_only :
    (∀ (options : JsonFormat) (v : Val) (buf pad : List Nat),
      ∃ suffix, (manifest_json_ex_buf options v buf pad).buf = buf ++ suffix)
    ∧ (∀ (s buf : List Nat), ∃ suffix, escape_string_json_buf s buf = buf ++ suffix) :=
  ⟨fun options v buf pad => lem_buf_val options v buf pad,
   fun s buf => ⟨_, escape_append s buf⟩⟩

/-! ## Lemmas: padding discipline (claim C9) -/

theorem padRep_cons (p : List Nat) (k : Nat) : p ++ padRep p k = padRep p (k + 1) := rfl

mutual
theorem lem_pad_val : ∀ (options : JsonFormat) (v : Val) (buf pad : List Nat),
    ((manifest_json_ex_buf options v buf pad).res = .ok →
      (manifest_json_ex_buf options v buf pad).pad = pad)
    ∧ (∃ k, (manifest_json_ex_buf options v buf pad).pad = pad ++ padRep options.padding k)
  | options, .bool b, buf, pad => by
    cases b <;> exact ⟨fun _ => rfl, ⟨0, by simp [manifest_json_ex_buf, padRep]⟩⟩
  | _, .null, _, pad => ⟨fun _ => rfl, ⟨0, by simp [manifest_json_ex_buf, padRep]⟩⟩
  | options, .str s, buf, pad => by
    simp only [manifest_json_ex_buf]
    split
    · split_ifs <;> exact ⟨fun _ => rfl, ⟨0, by simp [padRep]⟩⟩
    · exact ⟨fun _ => rfl, ⟨0, by simp [padRep]⟩⟩
  | _, .num n, _, pad => ⟨fun _ => rfl, ⟨0, by simp [manifest_json_ex_buf, padRep]⟩⟩
  | options, .arr items, buf, pad => by
    have h1 := lem_pad_items options items 0 (buf ++ [91]) (pad ++ options.padding)
    simp only [manifest_json_ex_buf]
    rcases hres : manifest_arr_items options items 0 (buf ++ [91]) (pad ++ options.padding)
      with ⟨res, buf2, pad2⟩
    rw [hres] at h1
    cases res with
    | error e =>
      refine ⟨fun h => WRes.noConfusion h, ?_⟩
      obtain ⟨k, hk⟩ := h1.2
      exact ⟨k + 1, by rw [hk, List.append_assoc, padRep_cons]⟩
    | panic =>
      refine ⟨fun h => WRes.noConfusion h, ?_⟩
      obtain ⟨k, hk⟩ := h1.2
      exact ⟨k + 1, by rw [hk, List.append_assoc, padRep_cons]⟩
    | ok =>
      have hp2 : pad2 = pad ++ options.padding := h1.1 rfl
      constructor
      · intro _
        show pad2.take pad.length = pad
        rw [hp2, List.take_left]
      · refine ⟨0, ?_⟩
        show pad2.take pad.length = pad ++ padRep options.padding 0
        rw [hp2, List.take_left]
        simp [padRep]
  | options, .obj assertions fields, buf, pad => by
    cases assertions with
    | some e =>
      exact ⟨fun h => WRes.noConfusion h, ⟨0, by simp [manifest_json_ex_buf, padRep]⟩⟩
    | none =>
      have h1 := lem_pad_fields options fields 0 (buf ++ [123]) (pad ++ options.padding)
      simp only [manifest_json_ex_buf]
      rcases hres : manifest_obj_fields options fields 0 (buf ++ [123]) (pad ++ options.padding)
        with ⟨res, buf2, pad2⟩
      rw [hres] at h1
      cases res with
      | error e =>
        refine ⟨fun h => WRes.noConfusion h, ?_⟩
        obtain ⟨k, hk⟩ := h1.2
        exact ⟨k + 1, by rw [hk, List.append_assoc, padRep_cons]⟩
      | panic =>
        refine ⟨fun h => WRes.noConfusion h, ?_⟩
        obtain ⟨k, hk⟩ := h1.2
        exact ⟨k + 1, by rw [hk, List.append_assoc, padRep_cons]⟩
      | ok =>
        have hp2 : pad2 = pad ++ options.padding := h1.1 rfl
        constructor
        · intro _
          show pad2.take pad.length = pad
          rw [hp2, List.take_left]
        · refine ⟨0, ?_⟩
          show pad2.take pad.length = pad ++ padRep options.padding 0
          rw [hp2, List.take_left]
          simp [padRep]
  | _, .func, _, pad =>
    ⟨fun h => WRes.noConfusion h, ⟨0, by simp [manifest_json_ex_buf, padRep]⟩⟩
termination_by options v buf pad => sizeOf v

theorem lem_pad_items : ∀ (options : JsonFormat) (items : List (Except Err Val))
    (i : Nat) (buf pad : List Nat),
    ((manifest_arr_items options items i buf pad).res = .ok →
      (manifest_arr_items options items i buf pad).pad = pad)
    ∧ (∃ k, (manifest_arr_items options items i buf pad).pad = pad ++ padRep options.padding k)
  | _, [], _, _, pad => ⟨fun _ => rfl, ⟨0, by simp [padRep, manifest_arr_items]⟩⟩
  | options, item :: rest, i, buf, pad => by
    cases item with
    | error e =>
      exact ⟨fun h => WRes.noConfusion h, ⟨0, by simp [manifest_arr_items, padRep]⟩⟩
    | ok v =>
      have hval := lem_pad_val options v (elem_sep options i buf pad) pad
      simp only [manifest_arr_items]
      rcases hres : manifest_json_ex_buf options v (elem_sep options i buf pad) pad
        with ⟨res, buf2, pad2⟩
      rw [hres] at hval
      cases res with
      | error e => exact ⟨fun h => WRes.noConfusion h, hval.2⟩
      | panic => exact ⟨fun h => WRes.noConfusion h, hval.2⟩
      | ok =>
        have hp2 : pad2 = pad := hval.1 rfl
        subst hp2
        exact lem_pad_items options rest (i + 1) buf2 pad2
termination_by options items i buf pad => sizeOf items

theorem lem_pad_fields : ∀ (options : JsonFormat)
    (fields : List (List Nat × Except Err Val)) (i : Nat) (buf pad : List Nat),
    ((manifest_obj_fields options fields i buf pad).res = .ok →
      (manifest_obj_fields options fields i buf pad).pad = pad)
    ∧ (∃ k, (manifest_obj_fields options fields i buf pad).pad = pad ++ padRep options.padding k)
  | _, [], _, _, pad => ⟨fun _ => rfl, ⟨0, by simp [padRep, manifest_obj_fields]⟩⟩
  | options, (key, value) :: rest, i, buf, pad => by
    cases value with
    | error e =>
      exact ⟨fun h => WRes.noConfusion h, ⟨0, by simp [manifest_obj_fields, padRep]⟩⟩
    | ok v =>
      have hval := lem_pad_val options v
        (escape_string_json_buf key (elem_sep options i buf pad) ++ options.key_val_sep) pad
      simp only [manifest_obj_fields]
      rcases hres : manifest_json_ex_buf options v
          (escape_string_json_buf key (elem_sep options i buf pad) ++ options.key_val_sep) pad
        with ⟨res, buf2, pad2⟩
      rw [hres] at hval
      cases res with
      | error e => exact ⟨fun h => WRes.noConfusion h, hval.2⟩
      | panic => exact ⟨fun h => WRes.noConfusion h, hval.2⟩
      | ok =>
        have hp2 : pad2 = pad := hval.1 rfl
        subst hp2
        exact lem_pad_fields options rest (i + 1) buf2 pad2
termination_by options fields i buf pad => sizeOf fields
end

/-! ## Claim C9 -/

/-- C9 (amended): one copy of the descriptor's padding is appended to the
indentation accumulator on entering a container; on a successful return the
accumulator equals its value at entry, while on an error return it equals
the entry value extended by the copies of the padding pushed on the path to
the failure (the early return skips the truncation), and is discarded
wholesale by the failing top-level call. -/
theorem claim_C9_padding_discipline :
    ∀ (options : JsonFormat) (v : Val) (buf pad : List Nat),
    ((manifest_json_ex_buf options v buf pad).res = .ok →
      (manifest_json_ex_buf options v buf pad).pad = pad)
    ∧ (∃ k, (manifest_json_ex_buf options v buf pad).pad
        = pad ++ padRep options.padding k) :=
  lem_pad_val

/-- C9 counterexample: manifesting the singleton array holding a function
under the CLI preset with one-space padding fails, and the returned
accumulator still holds the pushed padding copy instead of its entry value,
the empty string. -/
theorem claim_C9_counterexample :
    (manifest_json_ex_buf (JsonFormat.cli 1) (.arr [.ok .func]) [] []).pad = [32]
    ∧ (manifest_json_ex_buf (JsonFormat.cli 1) (.arr [.ok .func]) [] []).pad ≠ [] := by
  constructor
  · rfl
  · decide

/-- C9 witness: the amended claim applied at a null value with a nonempty
entry accumulator, whose success branch returns it unchanged. -/
theorem claim_C9_witness :
    (manifest_json_ex_buf JsonFormat.minify .null [] [32]).pad = [32] :=
  (claim_C9_padding_discipline JsonFormat.minify .null [] [32]).1 (by rfl)

/-! ## Lemmas: forced, function-free, panic-free values manifest successfully -/

mutual
theorem lem_ok_val : ∀ (options : JsonFormat) (v : Val) (buf pad : List Nat),
    forcedVal v = true → noFuncVal v = true → noPanicVal options v = true →
    (manifest_json_ex_buf options v buf pad).res = .ok
  | options, .bool b, buf, pad => by
    cases b <;> exact fun _ _ _ => rfl
  | _, .null, _, _ => fun _ _ _ => rfl
  | options, .str s, buf, pad => by
    intro _ _ hp
    simp only [noPanicVal] at hp
    rcases htr : options.debug_truncate_strings with _ | t
    · simp only [manifest_json_ex_buf, htr]
    · simp only [strNoPanic, htr] at hp
      simp only [manifest_json_ex_buf, htr]
      by_cases hgt : s.length > t
      · rw [if_pos hgt] at hp
        rw [Bool.and_eq_true] at hp
        rw [if_pos hgt, if_pos hp.1, if_pos hp.2]
      · rw [if_neg hgt]
  | _, .num n, _, _ => fun _ _ _ => rfl
  | options, .arr items, buf, pad => by
    intro hf hn hp
    simp only [forcedVal] at hf
    simp only [noFuncVal] at hn
    simp only [noPanicVal] at hp
    have h1 := lem_ok_items options items 0 (buf ++ [91]) (pad ++ options.padding) hf hn hp
    simp only [manifest_json_ex_buf]
    rcases hres : manifest_arr_items options items 0 (buf ++ [91]) (pad ++ options.padding)
      with ⟨res, buf2, pad2⟩
    rw [hres] at h1
    cases res with
    | error e => exact absurd h1 (by simp)
    | panic => exact absurd h1 (by simp)
    | ok => rfl
  | options, .obj assertions fields, buf, pad => by
    intro hf hn hp
    simp only [forcedVal] at hf
    simp only [noFuncVal] at hn
    simp only [noPanicVal] at hp
    rw [Bool.and_eq_true] at hf
    cases assertions with
    | some e => simp at hf
    | none =>
      have h1 := lem_ok_fields options fields 0 (buf ++ [123]) (pad ++ options.padding)
        hf.2 hn hp
      simp only [manifest_json_ex_buf]
      rcases hres : manifest_obj_fields options fields 0 (buf ++ [123]) (pad ++ options.padding)
        with ⟨res, buf2, pad2⟩
      rw [hres] at h1
      cases res with
      | error e => exact absurd h1 (by simp)
      | panic => exact absurd h1 (by simp)
      | ok => rfl
  | _, .func, _, _ => by
    intro _ hn _
    simp [noFuncVal] at hn
termination_by options v buf pad => sizeOf v

theorem lem_ok_items : ∀ (options : JsonFormat) (items : List (Except Err Val))
    (i : Nat) (buf pad : List Nat),
    forcedItems items = true → noFuncItems items = true →
    noPanicItems options items = true →
    (manifest_arr_items options items i buf pad).res = .ok
  | _, [], _, _, _ => fun _ _ _ => rfl
  | options, item :: rest, i, buf, pad => by
    intro hf hn hp
    cases item with
    | error e => simp [forcedItems] at hf
    | ok v =>
      simp only [forcedItems, Bool.and_eq_true] at hf
      simp only [noFuncItems, Bool.and_eq_true] at hn
      simp only [noPanicItems, Bool.and_eq_true] at hp
      have hval := lem_ok_val options v (elem_sep options i buf pad) pad hf.1 hn.1 hp.1
      simp only [manifest_arr_items]
      rcases hres : manifest_json_ex_buf options v (elem_sep options i buf pad) pad
        with ⟨res, buf2, pad2⟩
      rw [hres] at hval
      cases res with
      | error e => exact absurd hval (by simp)
      | panic => exact absurd hval (by simp)
      | ok => exact lem_ok_items options rest (i + 1) buf2 pad2 hf.2 hn.2 hp.2
termination_by options items i buf pad => sizeOf items

theorem lem_ok_fields : ∀ (options : JsonFormat)
    (fields : List (List Nat × Except Err Val)) (i : Nat) (buf pad : List Nat),
    forcedFields fields = true → noFuncFields fields = true →
    noPanicFields options fields = true →
    (manifest_obj_fields options fields i buf pad).res = .ok
  | _, [], _, _, _ => fun _ _ _ => rfl
  | options, (key, value) :: rest, i, buf, pad => by
    intro hf hn hp
    cases value with
    | error e => simp [forcedFields] at hf
    | ok v =>
      simp only [forcedFields, Bool.and_eq_true] at hf
      simp only [noFuncFields, Bool.and_eq_true] at hn
      simp only [noPanicFields, Bool.and_eq_true] at hp
      have hval := lem_ok_val options v
        (escape_string_json_buf key (elem_sep options i buf pad) ++ options.key_val_sep) pad
        hf.1 hn.1 hp.1
      simp only [manifest_obj_fields]
      rcases hres : manifest_json_ex_buf options v
          (escape_string_json_buf key (elem_sep options i buf pad) ++ options.key_val_sep) pad
        with ⟨res, buf2, pad2⟩
      rw [hres] at hval
      cases res with
      | error e => exact absurd hval (by simp)
      | panic => exact absurd hval (by simp)
      | ok => exact lem_ok_fields options rest (i + 1) buf2 pad2 hf.2 hn.2 hp.2
termination_by options fields i buf pad => sizeOf fields
end

/-! ## Lemmas: a reachable function value always fails the writer -/

mutual
theorem lem_fails_val : ∀ (options : JsonFormat) (v : Val) (buf pad : List Nat),
    noFuncVal v = false →
    (manifest_json_ex_buf options v buf pad).res ≠ .ok
  | _, .bool b, _, _ => by intro hn; simp [noFuncVal] at hn
  | _, .null, _, _ => by intro hn; simp [noFuncVal] at hn
  | _, .str s, _, _ => by intro hn; simp [noFuncVal] at hn
  | _, .num n, _, _ => by intro hn; simp [noFuncVal] at hn
  | options, .arr items, buf, pad => by
    intro hn
    simp only [noFuncVal] at hn
    have h1 := lem_fails_items options items 0 (buf ++ [91]) (pad ++ options.padding) hn
    simp only [manifest_json_ex_buf]
    rcases hres : manifest_arr_items options items 0 (buf ++ [91]) (pad ++ options.padding)
      with ⟨res, buf2, pad2⟩
    rw [hres] at h1
    cases res with
    | error e => exact fun h => WRes.noConfusion h
    | panic => exact fun h => WRes.noConfusion h
    | ok => exact absurd rfl h1
  | options, .obj assertions fields, buf, pad => by
    intro hn
    simp only [noFuncVal] at hn
    cases assertions with
    | some e =>
      simp only [manifest_json_ex_buf]
      exact fun h => WRes.noConfusion h
    | none =>
      have h1 := lem_fails_fields options fields 0 (buf ++ [123]) (pad ++ options.padding) hn
      simp only [manifest_json_ex_buf]
      rcases hres : manifest_obj_fields options fields 0 (buf ++ [123]) (pad ++ options.padding)
        with ⟨res, buf2, pad2⟩
      rw [hres] at h1
      cases res with
      | error e => exact fun h => WRes.noConfusion h
      | panic => exact fun h => WRes.noConfusion h
      | ok => exact absurd rfl h1
  | _, .func, _, _ => fun _ h => WRes.noConfusion h
termination_by options v buf pad => sizeOf v

theorem lem_fails_items : ∀ (options : JsonFormat) (items : List (Except Err Val))
    (i : Nat) (buf pad : List Nat),
    noFuncItems items = false →
    (manifest_arr_items options items i buf pad).res ≠ .ok
  | _, [], _, _, _ => by intro hn; simp [noFuncItems] at hn
  | options, item :: rest, i, buf, pad => by
    intro hn
    cases item with
    | error e =>
      simp only [manifest_arr_items]
      exact fun h => WRes.noConfusion h
    | ok v =>
      simp only [noFuncItems, Bool.and_eq_false_iff] at hn
      simp only [manifest_arr_items]
      rcases hres : manifest_json_ex_buf options v (elem_sep options i buf pad) pad
        with ⟨res, buf2, pad2⟩
      cases res with
      | error e => exact fun h => WRes.noConfusion h
      | panic => exact fun h => WRes.noConfusion h
      | ok =>
        cases hn with
        | inl hnv =>
          have := lem_fails_val options v (elem_sep options i buf pad) pad hnv
          rw [hres] at this
          exact absurd rfl this
        | inr hnr => exact lem_fails_items options rest (i + 1) buf2 pad2 hnr
termination_by options items i buf pad => sizeOf items

theorem lem_fails_fields : ∀ (options : JsonFormat)
    (fields : List (List Nat × Except Err Val)) (i : Nat) (buf pad : List Nat),
    noFuncFields fields = false →
    (manifest_obj_fields options fields i buf pad).res ≠ .ok
  | _, [], _, _, _ => by intro hn; simp [noFuncFields] at hn
  | options, (key, value) :: rest, i, buf, pad => by
    intro hn
    cases value with
    | error e =>
      simp only [manifest_obj_fields]
      exact fun h => WRes.noConfusion h
    | ok v =>
      simp only [noFuncFields, Bool.and_eq_false_iff] at hn
      simp only [manifest_obj_fields]
      rcases hres : manifest_json_ex_buf options v
          (escape_string_json_buf key (elem_sep options i buf pad) ++ options.key_val_sep) pad
        with ⟨res, buf2, pad2⟩
      cases res with
      | error e => exact fun h => WRes.noConfusion h
      | panic => exact fun h => WRes.noConfusion h
      | ok =>
        cases hn with
        | inl hnv =>
          have := lem_fails_val options v
            (escape_string_json_buf key (elem_sep options i buf pad) ++ options.key_val_sep)
            pad hnv
          rw [hres] at this
          exact absurd rfl this
        | inr hnr => exact lem_fails_fields options rest (i + 1) buf2 pad2 hnr
termination_by options fields i buf pad => sizeOf fields
end

/-! ## Lemmas: under full forcing the failure is the function error -/

theorem addFrame_msg (frame : List Nat) (e : Err) : (addFrame frame e).msg = e.msg := rfl

mutual
theorem lem_funcmsg_val : ∀ (options : JsonFormat) (v : Val) (buf pad : List Nat),
    forcedVal v = true → noPanicVal options v = true → noFuncVal v = false →
    ∃ e, (manifest_json_ex_buf options v buf pad).res = .error e
      ∧ e.msg = strBytes "tried to manifest function"
  | _, .bool b, _, _ => by intro _ _ hn; simp [noFuncVal] at hn
  | _, .null, _, _ => by intro _ _ hn; simp [noFuncVal] at hn
  | _, .str s, _, _ => by intro _ _ hn; simp [noFuncVal] at hn
  | _, .num n, _, _ => by intro _ _ hn; simp [noFuncVal] at hn
  | options, .arr items, buf, pad => by
    intro hf hp hn
    simp only [forcedVal] at hf
    simp only [noPanicVal] at hp
    simp only [noFuncVal] at hn
    have h1 := lem_funcmsg_items options items 0 (buf ++ [91]) (pad ++ options.padding)
      hf hp hn
    simp only [manifest_json_ex_buf]
    rcases hres : manifest_arr_items options items 0 (buf ++ [91]) (pad ++ options.padding)
      with ⟨res, buf2, pad2⟩
    rw [hres] at h1
    cases res with
    | error e0 =>
      obtain ⟨e, he, hmsg⟩ := h1
      exact ⟨e0, rfl, by rw [show e0 = e from WRes.error.inj he]; exact hmsg⟩
    | panic =>
      obtain ⟨e, he, _⟩ := h1
      exact absurd he (by simp)
    | ok =>
      obtain ⟨e, he, _⟩ := h1
      exact absurd he (by simp)
  | options, .obj assertions fields, buf, pad => by
    intro hf hp hn
    simp only [forcedVal, Bool.and_eq_true] at hf
    simp only [noPanicVal] at hp
    simp only [noFuncVal] at hn
    cases assertions with
    | some e => simp at hf
    | none =>
      have h1 := lem_funcmsg_fields options fields 0 (buf ++ [123]) (pad ++ options.padding)
        hf.2 hp hn
      simp only [manifest_json_ex_buf]
      rcases hres : manifest_obj_fields options fields 0 (buf ++ [123]) (pad ++ options.padding)
        with ⟨res, buf2, pad2⟩
      rw [hres] at h1
      cases res with
      | error e0 =>
        obtain ⟨e, he, hmsg⟩ := h1
        exact ⟨e0, rfl, by rw [show e0 = e from WRes.error.inj he]; exact hmsg⟩
      | panic =>
        obtain ⟨e, he, _⟩ := h1
        exact absurd he (by simp)
      | ok =>
        obtain ⟨e, he, _⟩ := h1
        exact absurd he (by simp)
  | _, .func, buf, pad =>
    fun _ _ _ => ⟨⟨strBytes "tried to manifest function", []⟩, rfl, rfl⟩
termination_by options v buf pad => sizeOf v

theorem lem_funcmsg_items : ∀ (options : JsonFormat) (items : List (Except Err Val))
    (i : Nat) (buf pad : List Nat),
    forcedItems items = true → noPanicItems options items = true →
    noFuncItems items = false →
    ∃ e, (manifest_arr_items options items i buf pad).res = .error e
      ∧ e.msg = strBytes "tried to manifest function"
  | _, [], _, _, _ => by intro _ _ hn; simp [noFuncItems] at hn
  | options, item :: rest, i, buf, pad => by
    intro hf hp hn
    cases item with
    | error e => simp [forcedItems] at hf
    | ok v =>
      simp only [forcedItems, Bool.and_eq_true] at hf
      simp only [noPanicItems, Bool.and_eq_true] at hp
      simp only [noFuncItems, Bool.and_eq_false_iff] at hn
      by_cases hnv : noFuncVal v = false
      · have hval := lem_funcmsg_val options v (elem_sep options i buf pad) pad
          hf.1 hp.1 hnv
        simp only [manifest_arr_items]
        rcases hres : manifest_json_ex_buf options v (elem_sep options i buf pad) pad
          with ⟨res, buf2, pad2⟩
        rw [hres] at hval
        cases res with
        | error e0 =>
          obtain ⟨e, he, hmsg⟩ := hval
          refine ⟨addFrame (elemManifestFrame i) e0, rfl, ?_⟩
          rw [addFrame_msg, show e0 = e from WRes.error.inj he]
          exact hmsg
        | panic =>
          obtain ⟨e, he, _⟩ := hval
          exact absurd he (by simp)
        | ok =>
          obtain ⟨e, he, _⟩ := hval
          exact absurd he (by simp)
      · have hnv' : noFuncVal v = true := by
          cases hv : noFuncVal v
          · exact absurd hv hnv
          · rfl
        have hnrest : noFuncItems rest = false := by
          cases hn with
          | inl h => exact absurd h hnv
          | inr h => exact h
        have hok := lem_ok_val options v (elem_sep options i buf pad) pad hf.1 hnv' hp.1
        simp only [manifest_arr_items]
        rcases hres : manifest_json_ex_buf options v (elem_sep options i buf pad) pad
          with ⟨res, buf2, pad2⟩
        rw [hres] at hok
        cases res with
        | error e0 => exact absurd hok (by simp)
        | panic => exact absurd hok (by simp)
        | ok => exact lem_funcmsg_items options rest (i + 1) buf2 pad2 hf.2 hp.2 hnrest
termination_by options items i buf pad => sizeOf items

theorem lem_funcmsg_fields : ∀ (options : JsonFormat)
    (fields : List (List Nat × Except Err Val)) (i : Nat) (buf pad : List Nat),
    forcedFields fields = true → noPanicFields options fields = true →
    noFuncFields fields = false →
    ∃ e, (manifest_obj_fields options fields i buf pad).res = .error e
      ∧ e.msg = strBytes "tried to manifest function"
  | _, [], _, _, _ => by intro _ _ hn; simp [noFuncFields] at hn
  | options, (key, value) :: rest, i, buf, pad => by
    intro hf hp hn
    cases value with
    | error e => simp [forcedFields] at hf
    | ok v =>
      simp only [forcedFields, Bool.and_eq_true] at hf
      simp only [noPanicFields, Bool.and_eq_true] at hp
      simp only [noFuncFields, Bool.and_eq_false_iff] at hn
      by_cases hnv : noFuncVal v = false
      · have hval := lem_funcmsg_val options v
          (escape_string_json_buf key (elem_sep options i buf pad) ++ options.key_val_sep) pad
          hf.1 hp.1 hnv
        simp only [manifest_obj_fields]
        rcases hres : manifest_json_ex_buf options v
            (escape_string_json_buf key (elem_sep options i buf pad) ++ options.key_val_sep) pad
          with ⟨res, buf2, pad2⟩
        rw [hres] at hval
        cases res with
        | error e0 =>
          obtain ⟨e, he, hmsg⟩ := hval
          refine ⟨addFrame (fieldManifestFrame key) e0, rfl, ?_⟩
          rw [addFrame_msg, show e0 = e from WRes.error.inj he]
          exact hmsg
        | panic =>
          obtain ⟨e, he, _⟩ := hval
          exact absurd he (by simp)
        | ok =>
          obtain ⟨e, he, _⟩ := hval
          exact absurd he (by simp)
      · have hnv' : noFuncVal v = true := by
          cases hv : noFuncVal v
          · exact absurd hv hnv
          · rfl
        have hnrest : noFuncFields rest = false := by
          cases hn with
          | inl h => exact absurd h hnv
          | inr h => exact h
        have hok := lem_ok_val options v
          (escape_string_json_buf key (elem_sep options i buf pad) ++ options.key_val_sep) pad
          hf.1 hnv' hp.1
        simp only [manifest_obj_fields]
        rcases hres : manifest_json_ex_buf options v
            (escape_string_json_buf key (elem_sep options i buf pad) ++ options.key_val_sep) pad
          with ⟨res, buf2, pad2⟩
        rw [hres] at hok
        cases res with
        | error e0 => exact absurd hok (by simp)
        | panic => exact absurd hok (by simp)
        | ok => exact lem_funcmsg_fields options rest (i + 1) buf2 pad2 hf.2 hp.2 hnrest
termination_by options fields i buf pad => sizeOf fields
end

/-! ## Claim C7 -/

/-- C7 (amended): for every dialect, an input whose reachable structure
holds a Function value never manifests successfully; when moreover every
lazy slot forces successfully, all pending validations pass, and no string
on the path makes the truncation split panic (in particular always when the
descriptor configures no truncation limit), the failure is the
function-not-manifestable error (its message survives all context
layering).  With failing slots, failing validations or a panicking
truncation split, an earlier failure of a different kind can preempt the
function error. -/
theorem claim_C7_function_failure :
    ∀ (options : JsonFormat) (v : Val) (buf pad : List Nat),
    noFuncVal v = false →
    (manifest_json_ex_buf options v buf pad).res ≠ .ok
    ∧ (forcedVal v = true → noPanicVal options v = true →
        ∃ e, (manifest_json_ex_buf options v buf pad).res = .error e
          ∧ e.msg = strBytes "tried to manifest function") :=
  fun options v buf pad hn =>
    ⟨lem_fails_val options v buf pad hn,
     fun hf hp => lem_funcmsg_val options v buf pad hf hp hn⟩

/-- C7 counterexample: an array whose first slot fails to force and whose
second holds a function fails with the forcing error rather than the
function-not-manifestable error; and under a truncating descriptor an array
whose forced slots hold a boundary-splitting long string before a function
panics in the split, producing no error at all. -/
theorem claim_C7_counterexample :
    (noFuncVal samplePreempted = false
      ∧ (manifest_json_ex_buf JsonFormat.minify samplePreempted [] []).res
          = .error ⟨strBytes "boom", [elemEvalFrame 0]⟩
      ∧ strBytes "boom" ≠ strBytes "tried to manifest function")
    ∧ (noFuncVal samplePanicky = false
      ∧ forcedVal samplePanicky = true
      ∧ (manifest_json_ex_buf sampleTruncFormat samplePanicky [] []).res = .panic) := by
  refine ⟨⟨rfl, rfl, by decide⟩, rfl, rfl, rfl⟩

/-- C7 witness: the amended claim applied at the bare function value. -/
theorem claim_C7_witness :
    (manifest_json_ex_buf JsonFormat.minify .func [] []).res ≠ .ok
    ∧ ∃ e, (manifest_json_ex_buf JsonFormat.minify .func [] []).res = .error e
        ∧ e.msg = strBytes "tried to manifest function" :=
  ⟨(claim_C7_function_failure JsonFormat.minify .func [] [] (by rfl)).1,
   (claim_C7_function_failure JsonFormat.minify .func [] [] (by rfl)).2 (by rfl) (by rfl)⟩

/-! ## Claim C4 -/

set_option maxHeartbeats 1000000 in
/-- C4: manifesting the object of scenario 1 (a: 1, b: the array of true
and null) with the Manifest dialect and 4-space padding produces exactly
the expected text: key-value separator colon-space, one padding copy per
nesting level, comma before the newline of the next element, closing
bracket preceded by newline plus the enclosing indent. -/
theorem claim_C4_scenario1 :
    manifest_json_ex (JsonFormat.cli 4) sampleScenario1 =
      some (.ok ([123]
        ++ strBytes "\n    \"a\": 1,\n    \"b\": [\n        true,\n        null\n    ]\n"
        ++ [125])) := by
  rfl

/-! ## Claim C5 -/

/-- C5: for every format descriptor, manifesting an empty array produces
the bracket pair under Minify, bracket-space-bracket under ToString and
Manifest, and bracket newline newline current-indent bracket under StdLib;
the empty object behaves analogously with braces, and the indentation
accumulator is returned unchanged. -/
theorem claim_C5_empty_containers :
    ∀ (options : JsonFormat) (buf pad : List Nat),
    manifest_json_ex_buf options (.arr []) buf pad
      = ⟨.ok, buf ++ spec_empty_array_text options pad, pad⟩
    ∧ manifest_json_ex_buf options (.obj none []) buf pad
      = ⟨.ok, buf ++ spec_empty_object_text options pad, pad⟩ := by
  intro options buf pad
  obtain ⟨p, mt, nl, sep, tr⟩ := options
  cases mt <;>
    constructor <;>
    simp [manifest_json_ex_buf, manifest_arr_items, manifest_obj_fields,
      close_seq, spec_empty_array_text, spec_empty_object_text, List.take_left]

/-! ## Claim C6 -/

/-- C6 (amended): with a configured truncation limit L, a string whose byte
length exceeds L and whose byte indices L/2 and length minus L/2 both fall
on character boundaries renders as a single quoted literal, the escaper
applied to the concatenation of its first L/2 bytes, the two dot bytes, and
its last L/2 bytes; when either split index falls inside a multibyte
character the writer panics in `str::split_at`, leaving the buffer
untouched; a string not exceeding L is escaped in full. -/
theorem claim_C6_truncation :
    ∀ (options : JsonFormat) (L : Nat) (s buf pad : List Nat),
    options.debug_truncate_strings = some L →
    (s.length > L → is_char_boundary s (L / 2) = true →
      is_char_boundary (s.drop (L / 2)) ((s.drop (L / 2)).length - L / 2) = true →
      manifest_json_ex_buf options (.str s) buf pad
        = ⟨.ok, escape_string_json_buf
            (s.take (L / 2) ++ [46, 46] ++ s.drop (s.length - L / 2)) buf, pad⟩)
    ∧ (s.length > L →
      (is_char_boundary s (L / 2) = false
        ∨ (is_char_boundary s (L / 2) = true
            ∧ is_char_boundary (s.drop (L / 2)) ((s.drop (L / 2)).length - L / 2)
              = false)) →
      manifest_json_ex_buf options (.str s) buf pad = ⟨.panic, buf, pad⟩)
    ∧ (s.length ≤ L → manifest_json_ex_buf options (.str s) buf pad
      = ⟨.ok, escape_string_json_buf s buf, pad⟩) := by
  intro options L s buf pad htr
  refine ⟨?_, ?_, ?_⟩
  · intro hgt hb1 hb2
    have hdrop : (s.drop (L / 2)).drop ((s.drop (L / 2)).length - L / 2)
        = s.drop (s.length - L / 2) := by
      rw [List.drop_drop, List.length_drop]
      congr 1
      omega
    simp only [manifest_json_ex_buf, htr, if_pos hgt, if_pos hb1, if_pos hb2, hdrop]
    rfl
  · intro hgt hb
    rcases hb with hb1 | ⟨hb1, hb2⟩
    · simp only [manifest_json_ex_buf, htr, if_pos hgt,
        if_neg (show ¬ is_char_boundary s (L / 2) = true by rw [hb1]; simp)]
    · simp only [manifest_json_ex_buf, htr, if_pos hgt, if_pos hb1,
        if_neg (show ¬ is_char_boundary (s.drop (L / 2))
            ((s.drop (L / 2)).length - L / 2) = true by rw [hb2]; simp)]
  · intro hle
    simp only [manifest_json_ex_buf, htr, if_neg (by omega : ¬ s.length > L)]

/-- C6 counterexample: with limit 2 the four-byte string abcd renders as
one quoted literal of the truncated text, which differs from the claimed
concatenation of two separately escaped (hence separately quoted) halves
joined by the two dots; and the five-byte two-character text whose byte
index 1 falls inside its first character makes the writer panic instead of
rendering anything. -/
theorem claim_C6_counterexample :
    ((manifest_json_ex_buf sampleTruncFormat (.str (strBytes "abcd")) [] []).buf
      = strBytes "\"a..d\""
    ∧ (manifest_json_ex_buf sampleTruncFormat (.str (strBytes "abcd")) [] []).buf
      ≠ escape_string_json_buf (strBytes "a") [] ++ strBytes ".."
        ++ escape_string_json_buf (strBytes "d") [])
    ∧ (sampleSplitStr.length > 2
      ∧ (manifest_json_ex_buf sampleTruncFormat (.str sampleSplitStr) [] []).res
        = .panic) := by
  refine ⟨⟨rfl, by decide⟩, by decide, rfl⟩

/-- C6 witness: the theorem applied at the limit 2 with the four-byte
string abcd (truncated), the boundary-splitting five-byte text (panic), and
the two-byte string ab (kept whole). -/
theorem claim_C6_witness :
    manifest_json_ex_buf sampleTruncFormat (.str (strBytes "abcd")) [] []
      = ⟨.ok, escape_string_json_buf
          ((strBytes "abcd").take 1 ++ [46, 46] ++ (strBytes "abcd").drop 3) [], []⟩
    ∧ manifest_json_ex_buf sampleTruncFormat (.str sampleSplitStr) [] []
      = ⟨.panic, [], []⟩
    ∧ manifest_json_ex_buf sampleTruncFormat (.str (strBytes "ab")) [] []
      = ⟨.ok, escape_string_json_buf (strBytes "ab") [], []⟩ :=
  ⟨(claim_C6_truncation sampleTruncFormat 2 (strBytes "abcd") [] [] rfl).1
      (by decide) (by decide) (by decide),
   (claim_C6_truncation sampleTruncFormat 2 sampleSplitStr [] [] rfl).2.1
      (by decide) (Or.inl (by decide)),
   (claim_C6_truncation sampleTruncFormat 2 (strBytes "ab") [] [] rfl).2.2 (by decide)⟩

/-! ## Lemmas: decimal rendering round-trips through the digit parser -/

theorem natDigitsAux_irrel : ∀ (f1 f2 n : Nat), n < f1 → n < f2 →
    natDigitsAux f1 n = natDigitsAux f2 n := by
  intro f1
  induction f1 with
  | zero => intro f2 n h1 _; omega
  | succ a ih =>
    intro f2 n h1 h2
    cases f2 with
    | zero => omega
    | succ b =>
      simp only [natDigitsAux]
      by_cases h : n < 10
      · simp [h]
      · simp only [if_neg h]
        have hdiv : n / 10 < n := Nat.div_lt_self (by omega) (by omega)
        rw [ih b (n / 10) (by omega) (by omega)]

theorem natBytes_unfold (n : Nat) :
    natBytes n = if n < 10 then [48 + n] else natBytes (n / 10) ++ [48 + n % 10] := by
  show natDigitsAux (n + 1) n = _
  simp only [natDigitsAux]
  by_cases h : n < 10
  · simp [h]
  · simp only [if_neg h]
    have hdiv : n / 10 < n := Nat.div_lt_self (by omega) (by omega)
    rw [natDigitsAux_irrel n (n / 10 + 1) (n / 10) (by omega) (by omega)]
    rfl

theorem natBytes_digits : ∀ n, ∀ d ∈ natBytes n, 48 ≤ d ∧ d ≤ 57 := by
  intro n
  induction n using Nat.strong_induction_on with
  | _ n ih =>
    rw [natBytes_unfold]
    by_cases h : n < 10
    · simp only [if_pos h]
      intro d hd
      simp only [List.mem_singleton] at hd
      omega
    · simp only [if_neg h]
      intro d hd
      rcases List.mem_append.mp hd with hm | hm
      · exact ih (n / 10) (Nat.div_lt_self (by omega) (by omega)) d hm
      · simp only [List.mem_singleton] at hm
        have := Nat.mod_lt n (show 0 < 10 by omega)
        omega

theorem natBytes_ne_nil (n : Nat) : natBytes n ≠ [] := by
  rw [natBytes_unfold]
  split <;> simp

theorem natBytes_foldl : ∀ n acc, (natBytes n).foldl (fun a d => a * 10 + (d - 48)) acc
    = acc * 10 ^ (natBytes n).length + n := by
  intro n
  induction n using Nat.strong_induction_on with
  | _ n ih =>
    intro acc
    rw [natBytes_unfold]
    by_cases h : n < 10
    · simp only [if_pos h, List.foldl_cons, List.foldl_nil, List.length_singleton]
      have : 48 + n - 48 = n := by omega
      rw [this]
      ring
    · simp only [if_neg h, List.foldl_append, List.foldl_cons, List.foldl_nil,
        List.length_append, List.length_singleton]
      rw [ih (n / 10) (Nat.div_lt_self (by omega) (by omega)) acc]
      have h48 : 48 + n % 10 - 48 = n % 10 := by omega
      rw [h48, pow_succ, Nat.add_mul, Nat.mul_assoc, Nat.add_assoc]
      congr 1
      exact Nat.div_add_mod' n 10

theorem parseDigitsAux_run : ∀ (ds : List Nat), (∀ d ∈ ds, 48 ≤ d ∧ d ≤ 57) →
    ∀ (rest : List Nat), delim rest = true → ∀ (acc : Nat),
    parseDigitsAux (ds ++ rest) acc
      = (ds.foldl (fun a d => a * 10 + (d - 48)) acc, rest) := by
  intro ds
  induction ds with
  | nil =>
    intro _ rest hrest acc
    cases rest with
    | nil => rfl
    | cons b t =>
      simp only [delim, Bool.not_eq_eq_eq_not, Bool.not_true] at hrest
      have hb : ¬ (48 ≤ b ∧ b ≤ 57) := by
        intro hcon
        simp [hcon.1, hcon.2] at hrest
      simp [parseDigitsAux, hb]
  | cons d t ih =>
    intro hds rest hrest acc
    have hd := hds d (by simp)
    simp only [List.cons_append, parseDigitsAux, if_pos hd, List.foldl_cons]
    exact ih (fun x hx => hds x (by simp [hx])) rest hrest _

theorem parseDigits_natBytes (n : Nat) (rest : List Nat) (hrest : delim rest = true) :
    parseDigits (natBytes n ++ rest) = some (n, rest) := by
  obtain ⟨d, t, hdt⟩ : ∃ d t, natBytes n = d :: t := by
    cases h : natBytes n with
    | nil => exact absurd h (natBytes_ne_nil n)
    | cons d t => exact ⟨d, t, rfl⟩
  have hd : 48 ≤ d ∧ d ≤ 57 := natBytes_digits n d (by rw [hdt]; simp)
  rw [hdt, List.cons_append]
  simp only [parseDigits, if_pos hd]
  rw [show d :: (t ++ rest) = (d :: t) ++ rest from rfl,
    parseDigitsAux_run (d :: t) (by rw [← hdt]; exact natBytes_digits n) rest hrest 0,
    ← hdt, natBytes_foldl]
  simp

/-! ## Lemmas: under Minify the writer appends the pure rendering -/

theorem elem_sep_minify (i : Nat) (buf pad : List Nat) :
    elem_sep JsonFormat.minify i buf pad = if i ≠ 0 then buf ++ [44] else buf := by
  by_cases hi : i ≠ 0 <;> simp [elem_sep, JsonFormat.minify, hi]

theorem renderMinify_head : ∀ (v : Val), forcedVal v = true → noFuncVal v = true →
    ∃ d t, renderMinify v = d :: t ∧ d ≠ 93 ∧ d ≠ 125 := by
  intro v hf hn
  cases v with
  | bool b =>
    cases b
    · exact ⟨102, _, rfl, by omega, by omega⟩
    · exact ⟨116, _, rfl, by omega, by omega⟩
  | null => exact ⟨110, _, rfl, by omega, by omega⟩
  | str s =>
    refine ⟨34, bodyEsc s ++ [34], ?_, by omega, by omega⟩
    show escape_string_json_buf s [] = _
    rw [escape_eq]
    rfl
  | num n =>
    cases n with
    | ofNat m =>
      obtain ⟨d, t, hdt⟩ : ∃ d t, natBytes m = d :: t := by
        cases h : natBytes m with
        | nil => exact absurd h (natBytes_ne_nil m)
        | cons d t => exact ⟨d, t, rfl⟩
      have hd := natBytes_digits m d (by rw [hdt]; simp)
      exact ⟨d, t, hdt, by omega, by omega⟩
    | negSucc m => exact ⟨45, _, rfl, by omega, by omega⟩
  | arr items => exact ⟨91, _, rfl, by omega, by omega⟩
  | obj assertions fields => exact ⟨123, _, rfl, by omega, by omega⟩
  | func => simp [noFuncVal] at hn

theorem renderMinify_length_pos (v : Val) (hf : forcedVal v = true)
    (hn : noFuncVal v = true) : 1 ≤ (renderMinify v).length := by
  obtain ⟨d, t, hdt, _, _⟩ := renderMinify_head v hf hn
  rw [hdt]
  simp

mutual
theorem lem_minify_val : ∀ (v : Val), forcedVal v = true → noFuncVal v = true →
    ∀ (buf pad : List Nat),
    manifest_json_ex_buf JsonFormat.minify v buf pad
      = ⟨.ok, buf ++ renderMinify v, pad⟩
  | .bool b => by cases b <;> exact fun _ _ buf pad => rfl
  | .null => fun _ _ buf pad => rfl
  | .str s => by
    intro _ _ buf pad
    show ⟨.ok, escape_string_json_buf s buf, pad⟩ = (⟨_, _, _⟩ : WriteOut)
    rw [escape_append]
    rfl
  | .num n => fun _ _ buf pad => rfl
  | .arr items => by
    intro hf hn buf pad
    simp only [forcedVal] at hf
    simp only [noFuncVal] at hn
    have h1 := lem_minify_items items hf hn 0 (buf ++ [91])
      (pad ++ JsonFormat.minify.padding)
    simp only [manifest_json_ex_buf]
    rw [h1]
    show (⟨.ok, close_seq JsonFormat.minify (!items.isEmpty) _ _ ++ [93], _⟩ : WriteOut) = _
    simp [close_seq, JsonFormat.minify, renderMinify]
  | .obj assertions fields => by
    intro hf hn buf pad
    simp only [forcedVal, Bool.and_eq_true] at hf
    simp only [noFuncVal] at hn
    cases assertions with
    | some e => simp at hf
    | none =>
      have h1 := lem_minify_fields fields hf.2 hn 0 (buf ++ [123])
        (pad ++ JsonFormat.minify.padding)
      simp only [manifest_json_ex_buf]
      rw [h1]
      show (⟨.ok, close_seq JsonFormat.minify (!fields.isEmpty) _ _ ++ [125], _⟩
        : WriteOut) = _
      simp [close_seq, JsonFormat.minify, renderMinify]
  | .func => by intro _ hn; simp [noFuncVal] at hn
termination_by v => sizeOf v

theorem lem_minify_items : ∀ (items : List (Except Err Val)),
    forcedItems items = true → noFuncItems items = true →
    ∀ (i : Nat) (buf pad : List Nat),
    manifest_arr_items JsonFormat.minify items i buf pad
      = ⟨.ok, buf ++ (if i = 0 then renderItems0 items else renderItemsT items), pad⟩
  | [] => by
    intro _ _ i buf pad
    have hnil : (if i = 0 then renderItems0 [] else renderItemsT []) = [] := by
      split <;> rfl
    simp [manifest_arr_items, hnil]
  | .error e :: rest => by intro hf _; simp [forcedItems] at hf
  | .ok v :: rest => by
    intro hf hn i buf pad
    simp only [forcedItems, Bool.and_eq_true] at hf
    simp only [noFuncItems, Bool.and_eq_true] at hn
    have hval := lem_minify_val v hf.1 hn.1 (elem_sep JsonFormat.minify i buf pad) pad
    have hrest := lem_minify_items rest hf.2 hn.2 (i + 1)
      (elem_sep JsonFormat.minify i buf pad ++ renderMinify v) pad
    simp only [manifest_arr_items]
    rw [hval]
    show manifest_arr_items JsonFormat.minify rest (i + 1)
      (elem_sep JsonFormat.minify i buf pad ++ renderMinify v) pad = _
    rw [hrest, elem_sep_minify]
    by_cases hi : i = 0
    · simp [hi, renderItems0]
    · simp [hi, renderItemsT]
termination_by items => sizeOf items

theorem lem_minify_fields : ∀ (fields : List (List Nat × Except Err Val)),
    forcedFields fields = true → noFuncFields fields = true →
    ∀ (i : Nat) (buf pad : List Nat),
    manifest_obj_fields JsonFormat.minify fields i buf pad
      = ⟨.ok, buf ++ (if i = 0 then renderFields0 fields else renderFieldsT fields), pad⟩
  | [] => by
    intro _ _ i buf pad
    have hnil : (if i = 0 then renderFields0 [] else renderFieldsT []) = [] := by
      split <;> rfl
    simp [manifest_obj_fields, hnil]
  | (key, .error e) :: rest => by intro hf _; simp [forcedFields] at hf
  | (key, .ok v) :: rest => by
    intro hf hn i buf pad
    simp only [forcedFields, Bool.and_eq_true] at hf
    simp only [noFuncFields, Bool.and_eq_true] at hn
    have hval := lem_minify_val v hf.1 hn.1
      (escape_string_json_buf key (elem_sep JsonFormat.minify i buf pad)
        ++ JsonFormat.minify.key_val_sep) pad
    have hrest := lem_minify_fields rest hf.2 hn.2 (i + 1)
      (escape_string_json_buf key (elem_sep JsonFormat.minify i buf pad)
        ++ JsonFormat.minify.key_val_sep ++ renderMinify v) pad
    simp only [manifest_obj_fields]
    rw [hval]
    show manifest_obj_fields JsonFormat.minify rest (i + 1)
      (escape_string_json_buf key (elem_sep JsonFormat.minify i buf pad)
        ++ JsonFormat.minify.key_val_sep ++ renderMinify v) pad = _
    rw [hrest, elem_sep_minify, escape_append]
    by_cases hi : i = 0
    · simp [hi, renderFields0, JsonFormat.minify, strBytes]
    · simp [hi, renderFieldsT, JsonFormat.minify, strBytes]
termination_by fields => sizeOf fields
end

/-- Under Minify a forced, function-free value manifests to exactly its
pure rendering. -/
theorem manifest_minify_eq_render (v : Val) (hf : forcedVal v = true)
    (hn : noFuncVal v = true) :
    manifest_json_ex JsonFormat.minify v = some (.ok (renderMinify v)) := by
  simp only [manifest_json_ex]
  rw [lem_minify_val v hf hn [] []]
  rfl

/-! ## Lemmas: one-step behaviour of the value parser -/

theorem delim_44 (t : List Nat) : delim (44 :: t) = true := by simp [delim]

theorem delim_93 (t : List Nat) : delim (93 :: t) = true := by simp [delim]

theorem delim_125 (t : List Nat) : delim (125 :: t) = true := by simp [delim]

theorem parseVal_null_head (f : Nat) (rest : List Nat) :
    parseVal (f + 1) (110 :: 117 :: 108 :: 108 :: rest) = some (.null, rest) := by
  simp [parseVal]

theorem parseVal_true_head (f : Nat) (rest : List Nat) :
    parseVal (f + 1) (116 :: 114 :: 117 :: 101 :: rest) = some (.bool true, rest) := by
  simp [parseVal]

theorem parseVal_false_head (f : Nat) (rest : List Nat) :
    parseVal (f + 1) (102 :: 97 :: 108 :: 115 :: 101 :: rest) = some (.bool false, rest) := by
  simp [parseVal]

theorem parseVal_quote_head (f : Nat) (rest : List Nat) :
    parseVal (f + 1) (34 :: rest)
      = (json_decode_chars (rest.length + 1) rest).map (fun p => (.str p.1, p.2)) := by
  simp [parseVal]

theorem parseVal_minus_head (f : Nat) (rest : List Nat) :
    parseVal (f + 1) (45 :: rest)
      = (parseDigits rest).map (fun p => (.num (-(p.1 : Int)), p.2)) := by
  simp [parseVal]

theorem parseVal_digit_head (f d : Nat) (t : List Nat) (hd : 48 ≤ d ∧ d ≤ 57) :
    parseVal (f + 1) (d :: t)
      = (parseDigits (d :: t)).map (fun p => (.num (p.1 : Int), p.2)) := by
  have h1 : d ≠ 110 := by omega
  have h2 : d ≠ 116 := by omega
  have h3 : d ≠ 102 := by omega
  have h4 : d ≠ 34 := by omega
  have h5 : d ≠ 91 := by omega
  have h6 : d ≠ 123 := by omega
  have h7 : d ≠ 45 := by omega
  simp [parseVal, h1, h2, h3, h4, h5, h6, h7, hd]

theorem parseVal_arr_empty (f : Nat) (rest : List Nat) :
    parseVal (f + 1) (91 :: 93 :: rest) = some (.arr [], rest) := by
  simp [parseVal]

theorem parseVal_arr_head (f d : Nat) (t : List Nat) (hd : d ≠ 93) :
    parseVal (f + 1) (91 :: d :: t)
      = (parseElems f (d :: t)).map (fun p => (.arr p.1, p.2)) := by
  simp only [parseVal]
  norm_num
  split
  · rename_i r heq
    rw [List.cons.injEq] at heq
    exact absurd heq.1 hd
  · rfl

theorem parseVal_obj_empty (f : Nat) (rest : List Nat) :
    parseVal (f + 1) (123 :: 125 :: rest) = some (.obj none [], rest) := by
  simp [parseVal]

theorem parseVal_obj_head (f d : Nat) (t : List Nat) (hd : d ≠ 125) :
    parseVal (f + 1) (123 :: d :: t)
      = (parseMembers f (d :: t)).map (fun p => (.obj none p.1, p.2)) := by
  simp only [parseVal]
  norm_num
  split
  · rename_i r heq
    rw [List.cons.injEq] at heq
    exact absurd heq.1 hd
  · rfl

theorem parseElems_step (f : Nat) (s : List Nat) :
    parseElems (f + 1) s
      = (parseVal f s).bind (fun p =>
          match p.2 with
          | 44 :: r2 => (parseElems f r2).map (fun q => (.ok p.1 :: q.1, q.2))
          | 93 :: r2 => some ([.ok p.1], r2)
          | _ => none) := rfl

theorem parseMembers_step (f : Nat) (s : List Nat) :
    parseMembers (f + 1) s
      = (match s with
        | 34 :: rest =>
          (json_decode_chars (rest.length + 1) rest).bind (fun kp =>
            match kp.2 with
            | 58 :: r2 =>
              (parseVal f r2).bind (fun p =>
                match p.2 with
                | 44 :: r3 =>
                  (parseMembers f r3).map (fun q => ((kp.1, .ok p.1) :: q.1, q.2))
                | 125 :: r3 => some ([(kp.1, .ok p.1)], r3)
                | _ => none)
            | _ => none)
        | _ => none) := rfl

/-! ## Lemmas: the parser inverts the Minify rendering -/

mutual
theorem lem_parse_val : ∀ (v : Val), forcedVal v = true → noFuncVal v = true →
    ∀ (fuel : Nat) (rest : List Nat), (renderMinify v).length < fuel → delim rest = true →
    parseVal fuel (renderMinify v ++ rest) = some (v, rest)
  | .bool b => by
    intro _ _ fuel rest hlen _
    cases fuel with
    | zero => exact absurd hlen (Nat.not_lt_zero _)
    | succ f =>
      cases b
      · exact parseVal_false_head f rest
      · exact parseVal_true_head f rest
  | .null => by
    intro _ _ fuel rest hlen _
    cases fuel with
    | zero => exact absurd hlen (Nat.not_lt_zero _)
    | succ f => exact parseVal_null_head f rest
  | .str s => by
    intro _ _ fuel rest hlen _
    cases fuel with
    | zero => exact absurd hlen (Nat.not_lt_zero _)
    | succ f =>
      have hsh : renderMinify (.str s) ++ rest = 34 :: (bodyEsc s ++ 34 :: rest) := by
        show escape_string_json_buf s [] ++ rest = _
        rw [escape_eq]
        simp
      rw [hsh, parseVal_quote_head f]
      rw [decode_bodyEsc s ((bodyEsc s ++ 34 :: rest).length + 1) rest
        (by simp only [List.length_append, List.length_cons]
            have := bodyEsc_length s
            omega)]
      rfl
  | .num n => by
    intro _ _ fuel rest hlen hrest
    cases fuel with
    | zero => exact absurd hlen (Nat.not_lt_zero _)
    | succ f =>
      cases n with
      | ofNat m =>
        obtain ⟨d, t, hdt⟩ : ∃ d t, natBytes m = d :: t := by
          cases h : natBytes m with
          | nil => exact absurd h (natBytes_ne_nil m)
          | cons d t => exact ⟨d, t, rfl⟩
        have hd : 48 ≤ d ∧ d ≤ 57 := natBytes_digits m d (by rw [hdt]; simp)
        show parseVal (f + 1) (natBytes m ++ rest) = _
        rw [hdt, List.cons_append, parseVal_digit_head f d _ hd,
          show d :: (t ++ rest) = (d :: t) ++ rest from rfl, ← hdt,
          parseDigits_natBytes m rest hrest]
        rfl
      | negSucc m =>
        show parseVal (f + 1) (45 :: (natBytes (m + 1) ++ rest)) = _
        rw [parseVal_minus_head f, parseDigits_natBytes (m + 1) rest hrest]
        show (some (Val.num (-((m + 1 : Nat) : Int)), rest) : Option (Val × List Nat))
          = some (Val.num (Int.negSucc m), rest)
        rw [show -((m + 1 : Nat) : Int) = Int.negSucc m from by
          rw [Int.negSucc_eq]
          omega]
  | .arr items => by
    intro hf hn fuel rest hlen hrest
    cases fuel with
    | zero => exact absurd hlen (Nat.not_lt_zero _)
    | succ f =>
      simp only [forcedVal] at hf
      simp only [noFuncVal] at hn
      cases items with
      | nil => exact parseVal_arr_empty f rest
      | cons x xs =>
        cases x with
        | error e => simp [forcedItems] at hf
        | ok v0 =>
          simp only [forcedItems, Bool.and_eq_true] at hf
          simp only [noFuncItems, Bool.and_eq_true] at hn
          obtain ⟨d, t, hdt, hd93, _⟩ := renderMinify_head v0 hf.1 hn.1
          have hsh : renderMinify (.arr (.ok v0 :: xs)) ++ rest
              = 91 :: (renderItems0 (.ok v0 :: xs) ++ 93 :: rest) := by
            simp [renderMinify]
          have hsh2 : renderItems0 (.ok v0 :: xs) ++ 93 :: rest
              = d :: (t ++ (renderItemsT xs ++ 93 :: rest)) := by
            simp [renderItems0, hdt]
          have hlen2 : (renderItems0 (.ok v0 :: xs)).length + 1 < f := by
            have : (renderMinify (.arr (.ok v0 :: xs))).length
                = (renderItems0 (.ok v0 :: xs)).length + 2 := by
              simp [renderMinify]
            omega
          rw [hsh, hsh2, parseVal_arr_head f d _ hd93, ← hsh2,
            lem_parse_items (.ok v0) xs (by simp [forcedItems, hf.1, hf.2])
              (by simp [noFuncItems, hn.1, hn.2]) f rest (by omega)]
          rfl
  | .obj assertions fields => by
    intro hf hn fuel rest hlen hrest
    cases fuel with
    | zero => exact absurd hlen (Nat.not_lt_zero _)
    | succ f =>
      simp only [forcedVal, Bool.and_eq_true] at hf
      simp only [noFuncVal] at hn
      cases assertions with
      | some e => simp at hf
      | none =>
        cases fields with
        | nil => exact parseVal_obj_empty f rest
        | cons kv xs =>
          obtain ⟨k, x⟩ := kv
          cases x with
          | error e => simp [forcedFields] at hf
          | ok v0 =>
            have hf2 := hf.2
            simp only [forcedFields, Bool.and_eq_true] at hf2
            simp only [noFuncFields, Bool.and_eq_true] at hn
            have hsh : renderMinify (.obj none ((k, .ok v0) :: xs)) ++ rest
                = 123 :: (renderFields0 ((k, .ok v0) :: xs) ++ 125 :: rest) := by
              simp [renderMinify]
            have hsh2 : renderFields0 ((k, .ok v0) :: xs) ++ 125 :: rest
                = 34 :: ((bodyEsc k ++ [34])
                    ++ ([58] ++ renderMinify v0 ++ (renderFieldsT xs ++ 125 :: rest))) := by
              show (escape_string_json_buf k [] ++ _ ++ _ ++ _) ++ _ = _
              rw [escape_eq]
              simp
            have hlen2 : (renderFields0 ((k, .ok v0) :: xs)).length + 1 < f := by
              have : (renderMinify (.obj none ((k, .ok v0) :: xs))).length
                  = (renderFields0 ((k, .ok v0) :: xs)).length + 2 := by
                simp [renderMinify]
              omega
            rw [hsh, hsh2, parseVal_obj_head f 34 _ (by omega), ← hsh2,
              lem_parse_fields (k, .ok v0) xs
                (by simp [forcedFields, hf2.1, hf2.2])
                (by simp [noFuncFields, hn.1, hn.2]) f rest (by omega)]
            rfl
  | .func => by intro _ hn; simp [noFuncVal] at hn
termination_by v => sizeOf v

theorem lem_parse_items : ∀ (x : Except Err Val) (xs : List (Except Err Val)),
    forcedItems (x :: xs) = true → noFuncItems (x :: xs) = true →
    ∀ (fuel : Nat) (rest : List Nat), (renderItems0 (x :: xs)).length + 1 < fuel →
    parseElems fuel (renderItems0 (x :: xs) ++ 93 :: rest) = some (x :: xs, rest)
  | .error e, xs => by intro hf _; simp [forcedItems] at hf
  | .ok v0, xs => by
    intro hf hn fuel rest hlen
    simp only [forcedItems, Bool.and_eq_true] at hf
    simp only [noFuncItems, Bool.and_eq_true] at hn
    cases fuel with
    | zero => exact absurd hlen (Nat.not_lt_zero _)
    | succ f =>
      have hsh : renderItems0 (.ok v0 :: xs) ++ 93 :: rest
          = renderMinify v0 ++ (renderItemsT xs ++ 93 :: rest) := by
        simp [renderItems0]
      have hdelim : delim (renderItemsT xs ++ 93 :: rest) = true := by
        cases xs with
        | nil => exact delim_93 rest
        | cons y ys =>
          cases y with
          | error e => simp [forcedItems] at hf
          | ok v1 =>
            show delim ((44 :: (renderMinify v1 ++ renderItemsT ys)) ++ 93 :: rest) = true
            rw [List.cons_append]
            exact delim_44 _
      have hlenv : (renderMinify v0).length < f := by
        have h0 : (renderItems0 (.ok v0 :: xs)).length
            = (renderMinify v0).length + (renderItemsT xs).length := by
          simp [renderItems0]
        omega
      rw [hsh, parseElems_step, lem_parse_val v0 hf.1 hn.1 f _ hlenv hdelim]
      cases xs with
      | nil => rfl
      | cons y ys =>
        cases y with
        | error e => simp [forcedItems] at hf
        | ok v1 =>
          have hlen1 : (renderItems0 (.ok v1 :: ys)).length + 1 < f := by
            have h0 : (renderItems0 (.ok v0 :: .ok v1 :: ys)).length
                = (renderMinify v0).length + (1 + ((renderMinify v1).length
                    + (renderItemsT ys).length)) := by
              simp [renderItems0, renderItemsT]
              omega
            have h1 : (renderItems0 (.ok v1 :: ys)).length
                = (renderMinify v1).length + (renderItemsT ys).length := by
              simp [renderItems0]
            omega
          show (parseElems f (renderItems0 (.ok v1 :: ys) ++ 93 :: rest)).map
              (fun q => ((Except.ok v0 : Except Err Val) :: q.1, q.2))
            = some (.ok v0 :: .ok v1 :: ys, rest)
          rw [lem_parse_items (.ok v1) ys hf.2 hn.2 f rest hlen1]
          rfl
termination_by x xs => sizeOf x + sizeOf xs

theorem lem_parse_fields : ∀ (kv : List Nat × Except Err Val)
    (xs : List (List Nat × Except Err Val)),
    forcedFields (kv :: xs) = true → noFuncFields (kv :: xs) = true →
    ∀ (fuel : Nat) (rest : List Nat), (renderFields0 (kv :: xs)).length + 1 < fuel →
    parseMembers fuel (renderFields0 (kv :: xs) ++ 125 :: rest) = some (kv :: xs, rest)
  | (k, .error e), xs => by intro hf _; simp [forcedFields] at hf
  | (k, .ok v0), xs => by
    intro hf hn fuel rest hlen
    simp only [forcedFields, Bool.and_eq_true] at hf
    simp only [noFuncFields, Bool.and_eq_true] at hn
    cases fuel with
    | zero => exact absurd hlen (Nat.not_lt_zero _)
    | succ f =>
      have hesc : (escape_string_json_buf k []).length = (bodyEsc k).length + 2 := by
        rw [escape_eq]
        simp
      have hlen0 : (renderFields0 ((k, .ok v0) :: xs)).length
          = (escape_string_json_buf k []).length + 1 + (renderMinify v0).length
            + (renderFieldsT xs).length := by
        show (escape_string_json_buf k [] ++ [58] ++ renderMinify v0
          ++ renderFieldsT xs).length = _
        simp only [List.length_append, List.length_cons, List.length_nil]
      have hsh : renderFields0 ((k, .ok v0) :: xs) ++ 125 :: rest
          = 34 :: (bodyEsc k ++ 34 :: 58
              :: (renderMinify v0 ++ (renderFieldsT xs ++ 125 :: rest))) := by
        show (escape_string_json_buf k [] ++ [58] ++ renderMinify v0
          ++ renderFieldsT xs) ++ 125 :: rest = _
        rw [escape_eq]
        simp
      have hdelim : delim (renderFieldsT xs ++ 125 :: rest) = true := by
        cases xs with
        | nil => exact delim_125 rest
        | cons kv1 ys =>
          obtain ⟨k1, y⟩ := kv1
          cases y with
          | error e => simp [forcedFields] at hf
          | ok v1 =>
            show delim ((44 :: (escape_string_json_buf k1 [] ++ [58] ++ renderMinify v1
              ++ renderFieldsT ys)) ++ 125 :: rest) = true
            rw [List.cons_append]
            exact delim_44 _
      have hlenv : (renderMinify v0).length < f := by omega
      rw [hsh, parseMembers_step]
      show (json_decode_chars
          ((bodyEsc k ++ 34 :: 58
            :: (renderMinify v0 ++ (renderFieldsT xs ++ 125 :: rest))).length + 1)
          (bodyEsc k ++ 34 :: 58
            :: (renderMinify v0 ++ (renderFieldsT xs ++ 125 :: rest)))).bind _
        = some ((k, .ok v0) :: xs, rest)
      rw [decode_bodyEsc k _ (58 :: (renderMinify v0 ++ (renderFieldsT xs ++ 125 :: rest)))
        (by simp only [List.length_append, List.length_cons]
            have := bodyEsc_length k
            omega)]
      show (parseVal f (renderMinify v0 ++ (renderFieldsT xs ++ 125 :: rest))).bind _
        = some ((k, .ok v0) :: xs, rest)
      rw [lem_parse_val v0 hf.1 hn.1 f _ hlenv hdelim]
      cases xs with
      | nil => rfl
      | cons kv1 ys =>
        obtain ⟨k1, y⟩ := kv1
        cases y with
        | error e => simp [forcedFields] at hf
        | ok v1 =>
          have hesc1 : (escape_string_json_buf k1 []).length
              = (bodyEsc k1).length + 2 := by
            rw [escape_eq]
            simp
          have hlenT : (renderFieldsT ((k1, .ok v1) :: ys)).length
              = (renderFields0 ((k1, .ok v1) :: ys)).length + 1 := by
            show ([44] ++ escape_string_json_buf k1 [] ++ [58] ++ renderMinify v1
                ++ renderFieldsT ys).length
              = (escape_string_json_buf k1 [] ++ [58] ++ renderMinify v1
                ++ renderFieldsT ys).length + 1
            simp only [List.length_append, List.length_cons, List.length_nil]
            omega
          have hlen1 : (renderFields0 ((k1, .ok v1) :: ys)).length + 1 < f := by
            omega
          show (parseMembers f (renderFields0 ((k1, .ok v1) :: ys) ++ 125 :: rest)).map
              (fun q => (((k, Except.ok v0) : List Nat × Except Err Val) :: q.1, q.2))
            = some ((k, .ok v0) :: (k1, .ok v1) :: ys, rest)
          rw [lem_parse_fields (k1, .ok v1) ys hf.2 hn.2 f rest hlen1]
          rfl
termination_by kv xs => sizeOf kv + sizeOf xs
end

/-! ## Claim C1 -/

/-- C1 (corrected): for a value with no reachable Function, all of whose
lazy slots forced successfully and whose pending validations pass,
manifestation under the Minify preset succeeds, and parsing the produced
text yields back exactly the original value.  The original claim omits the
forced-slots/passing-validations hypothesis, without which manifestation
can fail on function-free input (see the counterexample). -/
theorem claim_C1_minify_roundtrip (v : Val) (hf : forcedVal v = true)
    (hn : noFuncVal v = true) :
    ∃ out, manifest_json_ex JsonFormat.minify v = some (.ok out)
      ∧ parse_json out = some v := by
  refine ⟨renderMinify v, manifest_minify_eq_render v hf hn, ?_⟩
  have h := lem_parse_val v hf hn ((renderMinify v).length + 1) [] (by omega) rfl
  rw [List.append_nil] at h
  simp only [parse_json]
  rw [h]
  rfl

/-- C1 counterexample: a function-free value (an object whose pending
validations fail) on which Minify manifestation does not succeed, so the
claim without the forced/validated hypothesis is false as stated. -/
theorem claim_C1_counterexample :
    noFuncVal sampleBadAssert = true
    ∧ manifest_json_ex JsonFormat.minify sampleBadAssert
        = some (.error ⟨strBytes "assertion failed", []⟩) := ⟨rfl, rfl⟩

/-- C1 witness: the roundtrip theorem applied at the scenario object. -/
theorem claim_C1_witness :
    forcedVal sampleScenario1 = true ∧ noFuncVal sampleScenario1 = true
    ∧ ∃ out, manifest_json_ex JsonFormat.minify sampleScenario1 = some (.ok out)
        ∧ parse_json out = some sampleScenario1 :=
  ⟨rfl, rfl, claim_C1_minify_roundtrip sampleScenario1 rfl rfl⟩

/-! ## Claim C8 -/

/-- C8: the strict-string adapter given a non-String root, and the
document-stream adapter given a non-Array root, fail with a type-mismatch
error whose message names the actual kind of the offending value; the
buffer is left untouched and no text is returned. -/
theorem claim_C8_adapter_mismatch :
    ∀ (v w : Val) (buf1 buf2 : List Nat)
      (inner : Val → List Nat → Except Err Unit × List Nat) (cde enl : Bool),
    (v.isStr = false →
      StringFormat.manifest_buf v buf1
        = (.error ⟨strBytes "output should be string for string manifest format, got "
            ++ value_type v, []⟩, buf1)
      ∧ StringFormat.manifest v
        = .error ⟨strBytes "output should be string for string manifest format, got "
            ++ value_type v, []⟩)
    ∧ (w.isArr = false →
      YamlStreamFormat.manifest_buf inner cde enl w buf2
        = (.error ⟨strBytes "output should be array for yaml stream format, got "
            ++ value_type w, []⟩, buf2)) := by
  intro v w buf1 buf2 inner cde enl
  constructor
  · intro hv
    cases v <;>
      first
        | exact ⟨rfl, rfl⟩
        | exact absurd hv (by simp [Val.isStr])
  · intro hw
    cases w <;>
      first
        | rfl
        | exact absurd hw (by simp [Val.isArr])

/-- C8 witness: the theorem applied with a null root for the strict-string
adapter and a number root for the document-stream adapter. -/
theorem claim_C8_witness :
    (StringFormat.manifest_buf .null []
        = (.error ⟨strBytes "output should be string for string manifest format, got "
            ++ value_type .null, []⟩, [])
      ∧ StringFormat.manifest .null
        = .error ⟨strBytes "output should be string for string manifest format, got "
            ++ value_type .null, []⟩)
    ∧ YamlStreamFormat.manifest_buf (fun _ out => (.ok (), out)) true false (.num 3) []
        = (.error ⟨strBytes "output should be array for yaml stream format, got "
            ++ value_type (.num 3), []⟩, []) :=
  ⟨(claim_C8_adapter_mismatch .null (.num 3) [] []
      (fun _ out => (.ok (), out)) true false).1 (by decide),
   (claim_C8_adapter_mismatch .null (.num 3) [] []
      (fun _ out => (.ok (), out)) true false).2 (by decide)⟩

end Jrsonnet
